import Mathlib

/-!
Verification of the tag-suggestion engine of `image-tag-editor` (`src/main.py`,
class `TagAutoCompleteApp`).  The Python code is shallowly embedded: strings are
lists of characters (the tags in scope are ASCII, so `Char.toLower` models
`str.lower`), the tag-frequency dictionary is an insertion-ordered association
list, and Python's stable `list.sort(key=...)` is modelled by a stable insertion
sort parameterised by the boolean key comparison.  The session cache
(`tag_cache`) memoises `find_suggestions`, which is deterministic in the loaded
index, so the ranking is modelled as the pure function it caches.
-/

abbrev Str := List Char

/-- Characters stripped by Python's `str.strip()` / tested by `str.isspace()`. -/
def pyIsSpace (c : Char) : Bool :=
  c = ' ' || c = '\t' || c = '\n' || c = '\r' || c = '\x0b' || c = '\x0c'

/-- Model of `str.lower()` on the ASCII tags handled by the program. -/
def lowerStr (s : Str) : Str := s.map Char.toLower

/-- Model of Python `str.strip()`: drop whitespace from both ends. -/
def pyStrip (s : Str) : Str :=
  ((s.dropWhile pyIsSpace).reverse.dropWhile pyIsSpace).reverse

/-- Index of the first element satisfying `p` (leftmost-match search). -/
def findIdxFrom (p : Char → Bool) : Str → Option Nat
  | [] => none
  | c :: rest => if p c then some 0 else (findIdxFrom p rest).map (· + 1)

/-- Index of the last element satisfying `p` (rightmost-match search). -/
def rlastIdx (p : Char → Bool) : Str → Option Nat
  | [] => none
  | c :: rest =>
    match rlastIdx p rest with
    | some j => some (j + 1)
    | none => if p c then some 0 else none

/-- Model of Python `text.find(sub)`: position of the leftmost occurrence. -/
def findSub (q : Str) : Str → Option Nat
  | [] => if q = ([] : Str) then some 0 else none
  | c :: rest =>
    if q.isPrefixOf (c :: rest) then some 0 else (findSub q rest).map (· + 1)

/-- Model of Python `text.find(ch, start)`: leftmost `ch` at index `≥ start`. -/
def pyFindCharFrom (c : Char) (s : Str) (start : Nat) : Option Nat :=
  (findIdxFrom (fun d => d = c) (s.drop start)).map (· + start)

/-- Model of Python `text.rfind(ch, 0, stop)`: rightmost `ch` at index `< stop`. -/
def pyRfindCharBefore (c : Char) (s : Str) (stop : Nat) : Option Nat :=
  rlastIdx (fun d => d = c) (s.take stop)

/-- Constant `MAX_SUGGESTIONS` of `main.py` (line 102). -/
def MAX_SUGGESTIONS : Nat := 7

/-! ## FragmentResolver (`get_current_tag_part`, main.py lines 1024-1037) -/

/-- Left boundary of the comma-delimited fragment: one past the nearest comma
strictly before the cursor, or start of buffer (`start = 0 if left == -1 else left + 1`). -/
def fragStart (text : Str) (cursorPos : Nat) : Nat :=
  match pyRfindCharBefore ',' text cursorPos with
  | none => 0
  | some i => i + 1

/-- Right boundary of the comma-delimited fragment: the nearest comma at or
after the cursor, or end of buffer (`end = len(text) if right == -1 else right`). -/
def fragEnd (text : Str) (cursorPos : Nat) : Nat :=
  match pyFindCharFrom ',' text cursorPos with
  | none => text.length
  | some i => i

/-- The raw, untrimmed slice `text[start:end]` between the comma boundaries
(the spec's Fragment `text` before any trimming). -/
def fragmentRaw (text : Str) (cursorPos : Nat) : Str :=
  (text.take (fragEnd text cursorPos)).drop (fragStart text cursorPos)

/-- Embedding of `get_current_tag_part`: the comma-delimited fragment around
the cursor; the code returns `fragment.strip()`. -/
def get_current_tag_part (text : Str) (cursorPos : Nat) : Str :=
  pyStrip (fragmentRaw text cursorPos)

/-! ## Display / storage conversion (main.py lines 1197-1211) -/

/-- Embedding of `convert_tag_for_display`:
`tag.replace('_', ' ').replace('+', ' ')` (case is left untouched). -/
def convert_tag_for_display (tag : Str) : Str :=
  tag.map (fun c => if c = '_' || c = '+' then ' ' else c)

/-- Embedding of `convert_tag_for_storage`:
`display_tag.lower().replace(' ', '_')`. -/
def convert_tag_for_storage (displayTag : Str) : Str :=
  (lowerStr displayTag).map (fun c => if c = ' ' then '_' else c)

/-! ## InsertionEngine (`select_suggestion`, main.py lines 1281-1366).
The pure text rewriting of `select_suggestion` once the chosen storage-form
tag is known: boundaries use both `','` and `' '` as separators. -/

/-- Left boundary used by `select_suggestion`: the rightmost among the last
`','` and the last `' '` strictly before the cursor (Python keeps the max of
the two `rfind` results, `-1` meaning absent). -/
def selLeft (text : Str) (cursorPos : Nat) : Option Nat :=
  match pyRfindCharBefore ',' text cursorPos, pyRfindCharBefore ' ' text cursorPos with
  | none, o => o
  | some i, none => some i
  | some i, some j => some (max i j)

/-- Right boundary used by `select_suggestion`: the leftmost among the first
`','` and the first `' '` at or after the cursor, defaulting to `len(text)`. -/
def selRight (text : Str) (cursorPos : Nat) : Nat :=
  match pyFindCharFrom ',' text cursorPos, pyFindCharFrom ' ' text cursorPos with
  | none, none => text.length
  | some i, none => i
  | none, some j => j
  | some i, some j => min i j

/-- Start offset of the fragment rewritten by `select_suggestion`. -/
def selStart (text : Str) (cursorPos : Nat) : Nat :=
  match selLeft text cursorPos with
  | none => 0
  | some i => i + 1

/-- End offset of the fragment rewritten by `select_suggestion`. -/
def selEnd (text : Str) (cursorPos : Nat) : Nat := selRight text cursorPos

/-- The fragment `text[start:end]` that `select_suggestion` replaces. -/
def selFragment (text : Str) (cursorPos : Nat) : Str :=
  (text.take (selEnd text cursorPos)).drop (selStart text cursorPos)

/-- Leading whitespace kept verbatim: `fragment[:len(fragment) - len(fragment.lstrip(" \t"))]`. -/
def selLeadingWs (text : Str) (cursorPos : Nat) : Str :=
  (selFragment text cursorPos).takeWhile (fun c => c = ' ' || c = '\t')

/-- Separator appended by `select_suggestion`: a single space when nothing
non-whitespace follows, or when the suffix does not already start with
whitespace; empty otherwise. -/
def selAddSeparator (text : Str) (cursorPos : Nat) : Str :=
  let suffixT := text.drop (selEnd text cursorPos)
  if pyStrip suffixT = [] then [' ']
  else
    match suffixT with
    | [] => []
    | c :: _ => if pyIsSpace c then [] else [' ']

/-- Embedding of the buffer rewrite of `select_suggestion` (main.py lines
1314-1366): returns the new buffer text and the new cursor offset. -/
def select_suggestion (text : Str) (cursorPos : Nat) (origTag : Str) : Str × Nat :=
  let start := selStart text cursorPos
  let endp := selEnd text cursorPos
  let leadingWs := selLeadingWs text cursorPos
  let prefixT := text.take start
  let suffixT := text.drop endp
  let displayTag := convert_tag_for_display origTag
  let addSep := selAddSeparator text cursorPos
  (prefixT ++ leadingWs ++ displayTag ++ addSep ++ suffixT,
   prefixT.length + leadingWs.length + displayTag.length + addSep.length)

/-! ## Loader (`_manual_csv_parse` / `process_tags_with_frequency`,
main.py lines 909-976).  Rows arrive from `csv.reader` already split into
fields; `_manual_csv_parse` then pads every row to at least 4 columns. -/

/-- Padding step of `_manual_csv_parse`: `while len(row) < 4: row.append("")`. -/
def padRow (row : List Str) : List Str :=
  row ++ List.replicate (4 - row.length) ([] : Str)

/-- Model of Python `str.isdigit()` on ASCII text: non-empty and all digits. -/
def pyIsDigitStr (s : Str) : Bool :=
  (decide (s ≠ [])) && s.all (fun c => c.isDigit)

/-- Numeric value of a digit string (the value `int(...)` parses). -/
def natOfDigits (s : Str) : Nat :=
  s.foldl (fun n c => n * 10 + (c.toNat - 48)) 0

/-- Weight parsing: `int(row[2]) if str(row[2]).isdigit() else 0`. -/
def parseFreq (s : Str) : Nat :=
  if pyIsDigitStr s then natOfDigits s else 0

/-- The tag-to-weight dictionary `tag_freq_map`, as an insertion-ordered
association list (Python dicts preserve insertion order). -/
abbrev TagMap := List (Str × Nat)

/-- Dictionary key membership. -/
def mapHasKey (m : TagMap) (k : Str) : Bool := m.any (fun p => p.1 = k)

/-- Dictionary store `m[k] = v`: update in place when present, else append. -/
def mapSet (m : TagMap) (k : Str) (v : Nat) : TagMap :=
  if mapHasKey m k then m.map (fun p => if p.1 = k then (k, v) else p)
  else m ++ [(k, v)]

/-- Dictionary lookup `m.get(k)`. -/
def mapGet (m : TagMap) (k : Str) : Option Nat :=
  (m.find? (fun p => p.1 = k)).map (·.2)

/-- Stripped primary tag of a row: `str(row[0]).strip()`. -/
def rowMainTag (row : List Str) : Str := pyStrip (row.getD 0 [])

/-- Parsed weight of a row: `int(row[2]) if str(row[2]).isdigit() else 0`. -/
def rowFreq (row : List Str) : Nat := parseFreq (row.getD 2 [])

/-- Stripped alternate tags of a row: `str(row[3]).strip().split(",")`, each
part stripped again; empty when the row has no non-blank fourth field. -/
def rowAlts (row : List Str) : List Str :=
  if 4 ≤ row.length ∧ pyStrip (row.getD 3 []) ≠ [] then
    ((pyStrip (row.getD 3 [])).splitOn ',').map pyStrip
  else []

/-- Processing of one row of `process_tags_with_frequency`: rows shorter than
3 fields are skipped; a non-empty primary tag is stored unconditionally; each
non-empty alternate tag is appended only when absent, with weight
`max(1, row_weight // 2)`. -/
def processRow (m : TagMap) (row : List Str) : TagMap :=
  if row.length < 3 then m
  else
    let mainTag := rowMainTag row
    let freqV := rowFreq row
    let m1 := if mainTag ≠ [] then mapSet m mainTag freqV else m
    (rowAlts row).foldl
      (fun acc alt =>
        if alt ≠ [] ∧ ¬ mapHasKey acc alt then acc ++ [(alt, max 1 (freqV / 2))]
        else acc)
      m1

/-- Embedding of `process_tags_with_frequency`: fold the rows into the
tag-to-weight dictionary. -/
def process_tags_with_frequency (rows : List (List Str)) : TagMap :=
  rows.foldl processRow []

/-- Stable insertion of `x` into a sorted list: `x` goes after every element
`y` with `le y x`, so elements with equal keys keep their original order. -/
def insertLe {α : Type} (le : α → α → Bool) (x : α) : List α → List α
  | [] => [x]
  | y :: ys => if le y x then y :: insertLe le x ys else x :: y :: ys

/-- Stable sort by the boolean key comparison `le`, modelling Python's stable
`list.sort(key=...)`. -/
def stableSort {α : Type} (le : α → α → Bool) (l : List α) : List α :=
  l.foldl (fun acc x => insertLe le x acc) []

/-- Lexicographic order on `Str` by code point, modelling Python `str` order
(used only as the alphabetical tie-break of the index ordering). -/
def strLeLex : Str → Str → Bool
  | [], _ => true
  | _ :: _, [] => false
  | a :: as, b :: bs => if a = b then strLeLex as bs else decide (a < b)

/-- Index ordering of `process_tags_with_frequency`:
`sorted(keys, key=lambda tag: (-freq[tag], tag.lower()))`. -/
def sorted_tags_of (m : TagMap) : List Str :=
  stableSort
    (fun a b =>
      decide ((mapGet m b).getD 0 < (mapGet m a).getD 0) ||
      (decide ((mapGet m a).getD 0 = (mapGet m b).getD 0) &&
        strLeLex (lowerStr a) (lowerStr b)))
    (m.map (·.1))

/-- The load pipeline on pre-split rows: `_manual_csv_parse` padding followed
by `process_tags_with_frequency`. -/
def load_tag_rows (rawRows : List (List Str)) : TagMap :=
  process_tags_with_frequency (rawRows.map padRow)

/-! ## SuggestionRanker (`find_suggestions`, main.py lines 1049-1163) -/

/-- The four candidate accumulators of the scan loop. -/
structure ScanAcc where
  exactM : List (Str × Nat)
  prefM : List (Str × Nat × Nat)
  wordM : List (Str × Nat × Nat × Nat)
  subM : List (Str × Nat × Nat × Nat)

/-- The empty accumulator. -/
def ScanAcc.init : ScanAcc := ⟨[], [], [], []⟩

/-- Total number of collected candidates (`total_found`). -/
def ScanAcc.total (acc : ScanAcc) : Nat :=
  acc.exactM.length + acc.prefM.length + acc.wordM.length + acc.subM.length

/-- The word-boundary separator characters of the ranker. -/
def sepChars : List Char := ['_', '-', ' ', ':']

/-- Classification of one tag into exactly one accumulator, following the
if/elif/else chain of the scan loop: exact, prefix, else first-occurrence
substring split on whether the character before the occurrence is a separator. -/
def classifyTag (freq : Str → Nat) (q : Str) (acc : ScanAcc) (origTag : Str) : ScanAcc :=
  let lowerTag := lowerStr origTag
  let f := freq origTag
  if lowerTag = q then
    { acc with exactM := acc.exactM ++ [(origTag, f)] }
  else if q.isPrefixOf lowerTag then
    { acc with prefM := acc.prefM ++ [(origTag, f, origTag.length)] }
  else
    match findSub q lowerTag with
    | none => acc
    | some pos =>
      if pos = 0 ∨ lowerTag.getD (pos - 1) 'x' ∈ sepChars then
        { acc with wordM := acc.wordM ++ [(origTag, f, pos, origTag.length)] }
      else
        { acc with subM := acc.subM ++ [(origTag, f, pos, origTag.length)] }

/-- The scan loop with its two early exits: stop once at least 2 exact matches
are collected (`len(exact_matches) >= 2`), or once
`total_found >= MAX_SUGGESTIONS * 8`. -/
def scanTags (freq : Str → Nat) (q : Str) : List Str → ScanAcc → ScanAcc
  | [], acc => acc
  | t :: rest, acc =>
    let acc' := classifyTag freq q acc t
    if 2 ≤ acc'.exactM.length then acc'
    else if MAX_SUGGESTIONS * 8 ≤ acc'.total then acc'
    else scanTags freq q rest acc'

/-- Reference scan that classifies the entire index with no early exit,
following the spec's full-scan semantics (spec.md section 4.3). -/
def scanTagsFull (freq : Str → Nat) (q : Str) : List Str → ScanAcc → ScanAcc
  | [], acc => acc
  | t :: rest, acc => scanTagsFull freq q rest (classifyTag freq q acc t)

/-- Exact-tier comparison: `key=lambda x: -x[1]` (descending weight). -/
def leExact (a b : Str × Nat) : Bool := decide (b.2 ≤ a.2)

/-- Prefix-tier comparison: `key=lambda x: (-x[1], x[2])`
(descending weight, then ascending tag length). -/
def lePref (a b : Str × Nat × Nat) : Bool :=
  decide (b.2.1 < a.2.1) || (decide (a.2.1 = b.2.1) && decide (a.2.2 ≤ b.2.2))

/-- Word-start/substring tier comparison: `key=lambda x: (-x[1], x[2], x[3])`
(descending weight, then ascending match position, then ascending length). -/
def leQuad (a b : Str × Nat × Nat × Nat) : Bool :=
  decide (b.2.1 < a.2.1) ||
  (decide (a.2.1 = b.2.1) &&
    (decide (a.2.2.1 < b.2.2.1) ||
      (decide (a.2.2.1 = b.2.2.1) && decide (a.2.2.2 ≤ b.2.2.2))))

/-- Order-preserving deduplication with a seen set (`for tag in all_results:
if tag not in seen: ...`). -/
def dedupKeepFirst (seen : List Str) : List Str → List Str
  | [] => []
  | x :: xs =>
    if x ∈ seen then dedupKeepFirst seen xs
    else x :: dedupKeepFirst (x :: seen) xs

/-- Assembly of the ranked suggestion list from a finished scan accumulator:
sort each tier, concatenate in priority order, deduplicate, truncate. -/
def assembleSuggestions (acc : ScanAcc) : List Str :=
  let exactResults := (stableSort leExact acc.exactM).map (·.1)
  let prefResults := (stableSort lePref acc.prefM).map (·.1)
  let wordResults := (stableSort leQuad acc.wordM).map (·.1)
  let subResults := (stableSort leQuad acc.subM).map (·.1)
  let allResults := exactResults ++ prefResults ++ wordResults ++ subResults
  (dedupKeepFirst [] allResults).take MAX_SUGGESTIONS

/-- Embedding of `find_suggestions` (the pure function the session cache
memoises): normalise the query, scan with early exits, sort each tier,
concatenate, deduplicate, truncate to `MAX_SUGGESTIONS`. -/
def find_suggestions (allTags : List Str) (freq : Str → Nat) (query : Str) : List Str :=
  let q := pyStrip (lowerStr query)
  if q = [] ∨ allTags = [] then []
  else assembleSuggestions (scanTags freq q allTags ScanAcc.init)

/-- Reference ranking that scans the full index with no early exit, following
the spec's words in section 4.3 step 5; used to compare the short-circuited
scan against a full scan. -/
def find_suggestions_full (allTags : List Str) (freq : Str → Nat) (query : Str) : List Str :=
  let q := pyStrip (lowerStr query)
  if q = [] ∨ allTags = [] then []
  else assembleSuggestions (scanTagsFull freq q allTags ScanAcc.init)

/-! ## Spec-side predicates used to state the claims -/

/-- Occurrence of `q` in `s` at offset `pos`. -/
def occursAt (q s : Str) (pos : Nat) : Prop := q <+: s.drop pos

/-- Tier rank of a tag per the claim's wording (claim C1, spec.md section
4.3 step 2): 0 exact, 1 prefix, 2 when the query occurs at SOME word-boundary
position, 3 for any other occurrence, 4 when the tag does not match.  Written
with a bounded search so that it is decidable by evaluation. -/
def specTierRank (q tag : Str) : Nat :=
  let low := lowerStr tag
  if low = q then 0
  else if q.isPrefixOf low then 1
  else if (findSub q low).isSome then
    if (List.range (low.length + 1)).any
        (fun pos => q.isPrefixOf (low.drop pos) &&
          (decide (pos = 0) || decide (low.getD (pos - 1) 'x' ∈ sepChars))) then 2
    else 3
  else 4

/-- The ordering consequence of claim C1's concatenation step: in the returned
list, a tag of a better (smaller-ranked) tier never appears after a tag of a
worse tier. -/
def tiersRespected (q : Str) (out : List Str) : Prop :=
  out.Pairwise (fun a b => specTierRank q a ≤ specTierRank q b)

/-- Count of exact matches over a full scan of the index. -/
def exactCount (q : Str) (tags : List Str) : Nat :=
  (tags.filter (fun t => lowerStr t = q)).length

/-- Count of matching tags (any tier) over a full scan of the index. -/
def matchCount (q : Str) (tags : List Str) : Nat :=
  (tags.filter (fun t => (findSub q (lowerStr t)).isSome)).length

/-- A row whose primary (first) column carries the non-empty tag `a`. -/
def isPrimaryRow (a : Str) (r : List Str) : Prop :=
  3 ≤ r.length ∧ rowMainTag r = a ∧ a ≠ []

/-- A row whose alternates (fourth) column carries the non-empty tag `a`. -/
def isAltRow (a : Str) (r : List Str) : Prop :=
  3 ≤ r.length ∧ a ∈ rowAlts r ∧ a ≠ []

/-- Semantic description of the four accumulators after a scan over
`considered` tags: each tier contains exactly the tags satisfying its
matching condition, tagged with their weight, first-occurrence position and
length as collected by the loop. -/
def tierCharacterization (q : Str) (freq : Str → Nat) (considered : List Str)
    (acc : ScanAcc) : Prop :=
  (∀ t f, ((t, f) ∈ acc.exactM) ↔
    (t ∈ considered ∧ lowerStr t = q ∧ f = freq t))
  ∧ (∀ t f len, ((t, f, len) ∈ acc.prefM) ↔
    (t ∈ considered ∧ q <+: lowerStr t ∧ lowerStr t ≠ q ∧ f = freq t ∧ len = t.length))
  ∧ (∀ t f pos len, ((t, f, pos, len) ∈ acc.wordM) ↔
    (t ∈ considered ∧ findSub q (lowerStr t) = some pos ∧ ¬ q <+: lowerStr t
      ∧ (pos = 0 ∨ (lowerStr t).getD (pos - 1) 'x' ∈ sepChars)
      ∧ f = freq t ∧ len = t.length))
  ∧ (∀ t f pos len, ((t, f, pos, len) ∈ acc.subM) ↔
    (t ∈ considered ∧ findSub q (lowerStr t) = some pos ∧ ¬ q <+: lowerStr t
      ∧ ¬ (pos = 0 ∨ (lowerStr t).getD (pos - 1) 'x' ∈ sepChars)
      ∧ f = freq t ∧ len = t.length))

/-- The tag `t` is held by exactly one of the four tier accumulators. -/
def inExactlyOneTier (acc : ScanAcc) (t : Str) : Prop :=
  ([acc.exactM.any (fun x => x.1 = t), acc.prefM.any (fun x => x.1 = t),
    acc.wordM.any (fun x => x.1 = t), acc.subM.any (fun x => x.1 = t)].count true) = 1

/-- Full statement of the (amended) ranking characterization: the scan with
early exits equals a full classification of some prefix of the index; the
result is assembled from that classification; every tier holds exactly the
matching tags of the scanned prefix; each scanned matching tag sits in
exactly one tier; and each tier list is sorted by its key. -/
def rankCharacterization (tags : List Str) (freq : Str → Nat) (query : Str)
    (n : Nat) : Prop :=
  scanTags freq (pyStrip (lowerStr query)) tags ScanAcc.init
    = scanTagsFull freq (pyStrip (lowerStr query)) (tags.take n) ScanAcc.init
  ∧ find_suggestions tags freq query
    = assembleSuggestions
        (scanTagsFull freq (pyStrip (lowerStr query)) (tags.take n) ScanAcc.init)
  ∧ tierCharacterization (pyStrip (lowerStr query)) freq (tags.take n)
      (scanTagsFull freq (pyStrip (lowerStr query)) (tags.take n) ScanAcc.init)
  ∧ (∀ t ∈ tags.take n,
      (findSub (pyStrip (lowerStr query)) (lowerStr t)).isSome →
      inExactlyOneTier
        (scanTagsFull freq (pyStrip (lowerStr query)) (tags.take n) ScanAcc.init) t)
  ∧ (stableSort leExact
      (scanTagsFull freq (pyStrip (lowerStr query)) (tags.take n) ScanAcc.init).exactM).Pairwise
      (fun a b => leExact a b = true)
  ∧ (stableSort lePref
      (scanTagsFull freq (pyStrip (lowerStr query)) (tags.take n) ScanAcc.init).prefM).Pairwise
      (fun a b => lePref a b = true)
  ∧ (stableSort leQuad
      (scanTagsFull freq (pyStrip (lowerStr query)) (tags.take n) ScanAcc.init).wordM).Pairwise
      (fun a b => leQuad a b = true)
  ∧ (stableSort leQuad
      (scanTagsFull freq (pyStrip (lowerStr query)) (tags.take n) ScanAcc.init).subM).Pairwise
      (fun a b => leQuad a b = true)

instance (a : Str) (r : List Str) : Decidable (isPrimaryRow a r) := by
  unfold isPrimaryRow
  infer_instance

instance (a : Str) (r : List Str) : Decidable (isAltRow a r) := by
  unfold isAltRow
  infer_instance

instance (q s : Str) (pos : Nat) : Decidable (occursAt q s pos) := by
  unfold occursAt
  infer_instance

instance (q : Str) (out : List Str) : Decidable (tiersRespected q out) := by
  unfold tiersRespected
  infer_instance

/-! ## Infrastructure lemmas -/

theorem isPrefixOf_iff (l₁ l₂ : Str) : l₁.isPrefixOf l₂ = true ↔ l₁ <+: l₂ :=
  List.isPrefixOf_iff_prefix

theorem infix_of_pfx {l₁ l₂ : Str} (h : l₁ <+: l₂) : l₁ <:+: l₂ := by
  obtain ⟨t, ht⟩ := h
  exact ⟨[], t, by simpa using ht⟩

theorem findSub_isSome_iff (q : Str) : ∀ s : Str, (findSub q s).isSome ↔ q <:+: s := by
  intro s
  induction s with
  | nil =>
    by_cases h : q = ([] : Str) <;> simp [findSub, h]
  | cons c rest ih =>
    rw [findSub]
    by_cases h : q.isPrefixOf (c :: rest) = true
    · rw [isPrefixOf_iff] at h
      simp [h, infix_of_pfx h]
    · rw [if_neg h, List.infix_cons_iff]
      rw [isPrefixOf_iff] at h
      simp [h, ih]

theorem findSub_some_occurs (q : Str) :
    ∀ (s : Str) (pos : Nat), findSub q s = some pos → q <+: s.drop pos := by
  intro s
  induction s with
  | nil =>
    intro pos h
    by_cases hq : q = ([] : Str) <;> simp [findSub, hq] at h
    simp [← h, hq]
  | cons c rest ih =>
    intro pos h
    rw [findSub] at h
    by_cases hp : q.isPrefixOf (c :: rest) = true
    · rw [if_pos hp] at h
      cases h
      rw [isPrefixOf_iff] at hp
      simpa using hp
    · rw [if_neg hp] at h
      rcases hpos : findSub q rest with _ | p
      · rw [hpos] at h; simp at h
      · rw [hpos] at h
        simp at h
        subst h
        simpa using ih p hpos

theorem mem_insertLe {α : Type} (le : α → α → Bool) (x a : α) :
    ∀ l : List α, a ∈ insertLe le x l ↔ a = x ∨ a ∈ l := by
  intro l
  induction l with
  | nil => simp [insertLe]
  | cons y ys ih =>
    rw [insertLe]
    by_cases h : le y x = true
    · rw [if_pos h]
      simp only [List.mem_cons, ih]
      tauto
    · rw [if_neg h]
      simp only [List.mem_cons]

theorem mem_stableSort {α : Type} (le : α → α → Bool) (a : α) (l : List α) :
    a ∈ stableSort le l ↔ a ∈ l := by
  suffices h : ∀ (l : List α) (acc : List α),
      a ∈ l.foldl (fun acc x => insertLe le x acc) acc ↔ a ∈ acc ∨ a ∈ l by
    rw [stableSort, h]; simp
  intro l
  induction l with
  | nil => simp
  | cons y ys ih =>
    intro acc
    rw [List.foldl_cons, ih]
    simp only [mem_insertLe, List.mem_cons]
    tauto

theorem pairwise_insertLe {α : Type} (le : α → α → Bool)
    (htotal : ∀ a b, le a b = false → le b a = true)
    (htrans : ∀ a b c, le a b = true → le b c = true → le a c = true)
    (x : α) :
    ∀ l : List α, l.Pairwise (fun a b => le a b = true) →
      (insertLe le x l).Pairwise (fun a b => le a b = true) := by
  intro l
  induction l with
  | nil => intro _; simp [insertLe]
  | cons y ys ih =>
    intro hp
    rw [List.pairwise_cons] at hp
    obtain ⟨hy, hys⟩ := hp
    rw [insertLe]
    by_cases h : le y x = true
    · rw [if_pos h]
      rw [List.pairwise_cons]
      refine ⟨?_, ih hys⟩
      intro z hz
      rcases (mem_insertLe le x z ys).1 hz with h1 | h1
      · rw [h1]; exact h
      · exact hy z h1
    · rw [if_neg h]
      have hxy : le x y = true := htotal y x (by simpa using h)
      rw [List.pairwise_cons]
      refine ⟨?_, List.pairwise_cons.2 ⟨hy, hys⟩⟩
      intro z hz
      rcases List.mem_cons.1 hz with h1 | h1
      · rw [h1]; exact hxy
      · exact htrans x y z hxy (hy z h1)

theorem pairwise_stableSort {α : Type} (le : α → α → Bool)
    (htotal : ∀ a b, le a b = false → le b a = true)
    (htrans : ∀ a b c, le a b = true → le b c = true → le a c = true)
    (l : List α) :
    (stableSort le l).Pairwise (fun a b => le a b = true) := by
  suffices h : ∀ (l : List α) (acc : List α),
      acc.Pairwise (fun a b => le a b = true) →
      (l.foldl (fun acc x => insertLe le x acc) acc).Pairwise (fun a b => le a b = true) by
    exact h l [] (by simp)
  intro l
  induction l with
  | nil => intro acc h; simpa using h
  | cons y ys ih =>
    intro acc h
    rw [List.foldl_cons]
    exact ih _ (pairwise_insertLe le htotal htrans y acc h)

theorem mem_dedupKeepFirst (a : Str) :
    ∀ (l : List Str) (seen : List Str),
      a ∈ dedupKeepFirst seen l ↔ a ∈ l ∧ a ∉ seen := by
  intro l
  induction l with
  | nil => intro seen; simp [dedupKeepFirst]
  | cons x xs ih =>
    intro seen
    rw [dedupKeepFirst]
    by_cases h : x ∈ seen
    · rw [if_pos h, ih]
      simp only [List.mem_cons]
      constructor
      · rintro ⟨hx, hs⟩
        exact ⟨Or.inr hx, hs⟩
      · rintro ⟨hx | hx, hs⟩
        · exact (hs (by rw [hx]; exact h)).elim
        · exact ⟨hx, hs⟩
    · rw [if_neg h]
      simp only [List.mem_cons, ih, List.mem_cons]
      constructor
      · rintro (rfl | ⟨hx, hs⟩)
        · exact ⟨Or.inl rfl, h⟩
        · constructor
          · exact Or.inr hx
          · intro hm
            exact hs (Or.inr hm)
      · rintro ⟨hx | hx, hs⟩
        · exact Or.inl hx
        · by_cases hax : a = x
          · exact Or.inl hax
          · refine Or.inr ⟨hx, ?_⟩
            intro hm
            rcases hm with hm | hm
            · exact hax hm
            · exact hs hm

theorem leExact_total (a b : Str × Nat) : leExact a b = false → leExact b a = true := by
  simp [leExact]; omega

theorem leExact_trans (a b c : Str × Nat) :
    leExact a b = true → leExact b c = true → leExact a c = true := by
  simp [leExact]; omega

theorem lePref_total (a b : Str × Nat × Nat) : lePref a b = false → lePref b a = true := by
  simp [lePref]; omega

theorem lePref_trans (a b c : Str × Nat × Nat) :
    lePref a b = true → lePref b c = true → lePref a c = true := by
  simp [lePref]; omega

theorem leQuad_total (a b : Str × Nat × Nat × Nat) : leQuad a b = false → leQuad b a = true := by
  simp [leQuad]; omega

theorem leQuad_trans (a b c : Str × Nat × Nat × Nat) :
    leQuad a b = true → leQuad b c = true → leQuad a c = true := by
  simp [leQuad]; omega

/-! ## Scan-loop lemmas -/

theorem classify_exact_mem (freq : Str → Nat) (q : Str) (acc : ScanAcc) (t : Str)
    (x : Str × Nat) :
    x ∈ (classifyTag freq q acc t).exactM ↔
      x ∈ acc.exactM ∨ (x = (t, freq t) ∧ lowerStr t = q) := by
  by_cases h1 : lowerStr t = q
  · simp [classifyTag, h1]
  · by_cases h2 : q.isPrefixOf (lowerStr t) = true
    · simp [classifyTag, h1, h2]
    · rcases hf : findSub q (lowerStr t) with _ | pos
      · simp [classifyTag, h1, h2, hf]
      · by_cases h3 : pos = 0 ∨ (lowerStr t)[pos - 1]?.getD 'x' ∈ sepChars
        · simp [classifyTag, h1, h2, hf, h3]
        · simp [classifyTag, h1, h2, hf, h3]

theorem classify_pref_mem (freq : Str → Nat) (q : Str) (acc : ScanAcc) (t : Str)
    (x : Str × Nat × Nat) :
    x ∈ (classifyTag freq q acc t).prefM ↔
      x ∈ acc.prefM ∨
        (x = (t, freq t, t.length) ∧ q.isPrefixOf (lowerStr t) = true ∧ lowerStr t ≠ q) := by
  by_cases h1 : lowerStr t = q
  · simp [classifyTag, h1]
  · by_cases h2 : q.isPrefixOf (lowerStr t) = true
    · simp [classifyTag, h1, h2]
    · rcases hf : findSub q (lowerStr t) with _ | pos
      · simp [classifyTag, h1, h2, hf]
      · by_cases h3 : pos = 0 ∨ (lowerStr t)[pos - 1]?.getD 'x' ∈ sepChars
        · simp [classifyTag, h1, h2, hf, h3]
        · simp [classifyTag, h1, h2, hf, h3]

theorem classify_word_mem (freq : Str → Nat) (q : Str) (acc : ScanAcc) (t : Str)
    (x : Str × Nat × Nat × Nat) :
    x ∈ (classifyTag freq q acc t).wordM ↔
      x ∈ acc.wordM ∨
        (∃ pos, x = (t, freq t, pos, t.length) ∧ findSub q (lowerStr t) = some pos ∧
          q.isPrefixOf (lowerStr t) = false ∧ lowerStr t ≠ q ∧
          (pos = 0 ∨ (lowerStr t)[pos - 1]?.getD 'x' ∈ sepChars)) := by
  by_cases h1 : lowerStr t = q
  · simp [classifyTag, h1]
  · by_cases h2 : q.isPrefixOf (lowerStr t) = true
    · simp [classifyTag, h1, h2]
    · rcases hf : findSub q (lowerStr t) with _ | pos
      · simp [classifyTag, h1, h2, hf]
      · by_cases h3 : pos = 0 ∨ (lowerStr t)[pos - 1]?.getD 'x' ∈ sepChars
        · simp [classifyTag, h1, h2, hf, h3, Bool.not_eq_true]
          constructor
          · rintro (h | rfl)
            · exact Or.inl h
            · exact Or.inr ⟨pos, rfl, rfl, h3⟩
          · rintro (h | ⟨p1, hx, rfl, hcond⟩)
            · exact Or.inl h
            · exact Or.inr hx
        · simp [classifyTag, h1, h2, hf, h3, Bool.not_eq_true]
          intro p1 hx hpp hcond
          subst hpp
          exact absurd hcond h3

theorem classify_sub_mem (freq : Str → Nat) (q : Str) (acc : ScanAcc) (t : Str)
    (x : Str × Nat × Nat × Nat) :
    x ∈ (classifyTag freq q acc t).subM ↔
      x ∈ acc.subM ∨
        (∃ pos, x = (t, freq t, pos, t.length) ∧ findSub q (lowerStr t) = some pos ∧
          q.isPrefixOf (lowerStr t) = false ∧ lowerStr t ≠ q ∧
          ¬ (pos = 0 ∨ (lowerStr t)[pos - 1]?.getD 'x' ∈ sepChars)) := by
  by_cases h1 : lowerStr t = q
  · simp [classifyTag, h1]
  · by_cases h2 : q.isPrefixOf (lowerStr t) = true
    · simp [classifyTag, h1, h2]
    · rcases hf : findSub q (lowerStr t) with _ | pos
      · simp [classifyTag, h1, h2, hf]
      · by_cases h3 : pos = 0 ∨ (lowerStr t)[pos - 1]?.getD 'x' ∈ sepChars
        · simp [classifyTag, h1, h2, hf, h3, Bool.not_eq_true]
          intro p1 hx hpp hne hnin
          subst hpp
          rcases h3 with h0 | hin
          · exact absurd h0 hne
          · exact absurd hin hnin
        · simp [classifyTag, h1, h2, hf, h3, Bool.not_eq_true]
          rcases not_or.1 h3 with ⟨h0, hin⟩
          constructor
          · rintro (h | rfl)
            · exact Or.inl h
            · exact Or.inr ⟨pos, rfl, rfl, h0, hin⟩
          · rintro (h | ⟨p1, hx, rfl, hi0, hiin⟩)
            · exact Or.inl h
            · exact Or.inr hx

theorem scanFull_exact_mem (freq : Str → Nat) (q : Str) :
    ∀ (l : List Str) (acc : ScanAcc) (x : Str × Nat),
      x ∈ (scanTagsFull freq q l acc).exactM ↔
        x ∈ acc.exactM ∨ ∃ t, t ∈ l ∧ x = (t, freq t) ∧ lowerStr t = q := by
  intro l
  induction l with
  | nil => intro acc x; simp [scanTagsFull]
  | cons y rest ih =>
    intro acc x
    rw [scanTagsFull, ih, classify_exact_mem]
    constructor
    · rintro ((hacc | ⟨hx, hq⟩) | ⟨t, ht, hx, hq⟩)
      · exact Or.inl hacc
      · exact Or.inr ⟨y, List.mem_cons_self y rest, hx, hq⟩
      · exact Or.inr ⟨t, List.mem_cons_of_mem y ht, hx, hq⟩
    · rintro (hacc | ⟨t, ht, hx, hq⟩)
      · exact Or.inl (Or.inl hacc)
      · rcases List.mem_cons.1 ht with rfl | ht
        · exact Or.inl (Or.inr ⟨hx, hq⟩)
        · exact Or.inr ⟨t, ht, hx, hq⟩

theorem scanFull_pref_mem (freq : Str → Nat) (q : Str) :
    ∀ (l : List Str) (acc : ScanAcc) (x : Str × Nat × Nat),
      x ∈ (scanTagsFull freq q l acc).prefM ↔
        x ∈ acc.prefM ∨ ∃ t, t ∈ l ∧ x = (t, freq t, t.length) ∧
          q.isPrefixOf (lowerStr t) = true ∧ lowerStr t ≠ q := by
  intro l
  induction l with
  | nil => intro acc x; simp [scanTagsFull]
  | cons y rest ih =>
    intro acc x
    rw [scanTagsFull, ih, classify_pref_mem]
    constructor
    · rintro ((hacc | ⟨hx, hp, hq⟩) | ⟨t, ht, hx, hp, hq⟩)
      · exact Or.inl hacc
      · exact Or.inr ⟨y, List.mem_cons_self y rest, hx, hp, hq⟩
      · exact Or.inr ⟨t, List.mem_cons_of_mem y ht, hx, hp, hq⟩
    · rintro (hacc | ⟨t, ht, hx, hp, hq⟩)
      · exact Or.inl (Or.inl hacc)
      · rcases List.mem_cons.1 ht with rfl | ht
        · exact Or.inl (Or.inr ⟨hx, hp, hq⟩)
        · exact Or.inr ⟨t, ht, hx, hp, hq⟩

theorem scanFull_word_mem (freq : Str → Nat) (q : Str) :
    ∀ (l : List Str) (acc : ScanAcc) (x : Str × Nat × Nat × Nat),
      x ∈ (scanTagsFull freq q l acc).wordM ↔
        x ∈ acc.wordM ∨ ∃ t, t ∈ l ∧ ∃ pos, x = (t, freq t, pos, t.length) ∧
          findSub q (lowerStr t) = some pos ∧ q.isPrefixOf (lowerStr t) = false ∧
          lowerStr t ≠ q ∧ (pos = 0 ∨ (lowerStr t)[pos - 1]?.getD 'x' ∈ sepChars) := by
  intro l
  induction l with
  | nil => intro acc x; simp [scanTagsFull]
  | cons y rest ih =>
    intro acc x
    rw [scanTagsFull, ih, classify_word_mem]
    constructor
    · rintro ((hacc | ⟨pos, hx, hf, hp, hq, hb⟩) | ⟨t, ht, pos, hx, hf, hp, hq, hb⟩)
      · exact Or.inl hacc
      · exact Or.inr ⟨y, List.mem_cons_self y rest, pos, hx, hf, hp, hq, hb⟩
      · exact Or.inr ⟨t, List.mem_cons_of_mem y ht, pos, hx, hf, hp, hq, hb⟩
    · rintro (hacc | ⟨t, ht, pos, hx, hf, hp, hq, hb⟩)
      · exact Or.inl (Or.inl hacc)
      · rcases List.mem_cons.1 ht with rfl | ht
        · exact Or.inl (Or.inr ⟨pos, hx, hf, hp, hq, hb⟩)
        · exact Or.inr ⟨t, ht, pos, hx, hf, hp, hq, hb⟩

theorem scanFull_sub_mem (freq : Str → Nat) (q : Str) :
    ∀ (l : List Str) (acc : ScanAcc) (x : Str × Nat × Nat × Nat),
      x ∈ (scanTagsFull freq q l acc).subM ↔
        x ∈ acc.subM ∨ ∃ t, t ∈ l ∧ ∃ pos, x = (t, freq t, pos, t.length) ∧
          findSub q (lowerStr t) = some pos ∧ q.isPrefixOf (lowerStr t) = false ∧
          lowerStr t ≠ q ∧ ¬ (pos = 0 ∨ (lowerStr t)[pos - 1]?.getD 'x' ∈ sepChars) := by
  intro l
  induction l with
  | nil => intro acc x; simp [scanTagsFull]
  | cons y rest ih =>
    intro acc x
    rw [scanTagsFull, ih, classify_sub_mem]
    constructor
    · rintro ((hacc | ⟨pos, hx, hf, hp, hq, hb⟩) | ⟨t, ht, pos, hx, hf, hp, hq, hb⟩)
      · exact Or.inl hacc
      · exact Or.inr ⟨y, List.mem_cons_self y rest, pos, hx, hf, hp, hq, hb⟩
      · exact Or.inr ⟨t, List.mem_cons_of_mem y ht, pos, hx, hf, hp, hq, hb⟩
    · rintro (hacc | ⟨t, ht, pos, hx, hf, hp, hq, hb⟩)
      · exact Or.inl (Or.inl hacc)
      · rcases List.mem_cons.1 ht with rfl | ht
        · exact Or.inl (Or.inr ⟨pos, hx, hf, hp, hq, hb⟩)
        · exact Or.inr ⟨t, ht, pos, hx, hf, hp, hq, hb⟩

theorem scan_eq_full_take (freq : Str → Nat) (q : Str) :
    ∀ (l : List Str) (acc : ScanAcc),
      ∃ n, scanTags freq q l acc = scanTagsFull freq q (l.take n) acc := by
  intro l
  induction l with
  | nil => intro acc; exact ⟨0, rfl⟩
  | cons t rest ih =>
    intro acc
    simp only [scanTags]
    by_cases h1 : 2 ≤ (classifyTag freq q acc t).exactM.length
    · refine ⟨1, ?_⟩
      rw [if_pos h1]
      simp [scanTagsFull]
    · rw [if_neg h1]
      by_cases h2 : MAX_SUGGESTIONS * 8 ≤ (classifyTag freq q acc t).total
      · refine ⟨1, ?_⟩
        rw [if_pos h2]
        simp [scanTagsFull]
      · rw [if_neg h2]
        obtain ⟨n, hn⟩ := ih (classifyTag freq q acc t)
        refine ⟨n + 1, ?_⟩
        rw [hn]
        simp [scanTagsFull]

/-! ## Early-exit bounds -/

theorem classify_exact_length (freq : Str → Nat) (q : Str) (acc : ScanAcc) (t : Str) :
    (classifyTag freq q acc t).exactM.length =
      acc.exactM.length + (if lowerStr t = q then 1 else 0) := by
  by_cases h1 : lowerStr t = q
  · simp [classifyTag, h1]
  · by_cases h2 : q.isPrefixOf (lowerStr t) = true
    · simp [classifyTag, h1, h2]
    · rcases hf : findSub q (lowerStr t) with _ | pos
      · simp [classifyTag, h1, h2, hf]
      · by_cases h3 : pos = 0 ∨ (lowerStr t)[pos - 1]?.getD 'x' ∈ sepChars
        · simp [classifyTag, h1, h2, hf, h3]
        · simp [classifyTag, h1, h2, hf, h3]

theorem classify_total_length (freq : Str → Nat) (q : Str) (acc : ScanAcc) (t : Str) :
    (classifyTag freq q acc t).total =
      acc.total + (if (findSub q (lowerStr t)).isSome then 1 else 0) := by
  by_cases h1 : lowerStr t = q
  · have hs : (findSub q q).isSome = true := by
      rw [findSub_isSome_iff]
    simp [classifyTag, ScanAcc.total, h1, hs]
    all_goals omega
  · by_cases h2 : q.isPrefixOf (lowerStr t) = true
    · have hs : (findSub q (lowerStr t)).isSome = true := by
        rw [findSub_isSome_iff]
        exact infix_of_pfx ((isPrefixOf_iff q (lowerStr t)).1 h2)
      simp [classifyTag, ScanAcc.total, h1, h2, hs]
      all_goals omega
    · rcases hf : findSub q (lowerStr t) with _ | pos
      · simp [classifyTag, ScanAcc.total, h1, h2, hf]
      · by_cases h3 : pos = 0 ∨ (lowerStr t)[pos - 1]?.getD 'x' ∈ sepChars
        · simp [classifyTag, ScanAcc.total, h1, h2, hf, h3]
          all_goals omega
        · simp [classifyTag, ScanAcc.total, h1, h2, hf, h3]
          all_goals omega

theorem scan_eq_full_of_bounds (freq : Str → Nat) (q : Str) :
    ∀ (l : List Str) (acc : ScanAcc),
      acc.exactM.length + exactCount q l < 2 →
      acc.total + matchCount q l < MAX_SUGGESTIONS * 8 →
      scanTags freq q l acc = scanTagsFull freq q l acc := by
  intro l
  induction l with
  | nil => intro acc _ _; rfl
  | cons t rest ih =>
    intro acc h1 h2
    have he : exactCount q (t :: rest) =
        (if lowerStr t = q then 1 else 0) + exactCount q rest := by
      by_cases hc : lowerStr t = q <;> simp [exactCount, List.filter_cons, hc] <;>
        all_goals omega
    have hm : matchCount q (t :: rest) =
        (if (findSub q (lowerStr t)).isSome then 1 else 0) + matchCount q rest := by
      by_cases hc : (findSub q (lowerStr t)).isSome = true <;>
        simp [matchCount, List.filter_cons, hc] <;> all_goals omega
    have hel := classify_exact_length freq q acc t
    have htl := classify_total_length freq q acc t
    rw [he] at h1
    rw [hm] at h2
    have hnot1 : ¬ 2 ≤ (classifyTag freq q acc t).exactM.length := by
      rw [hel]; omega
    have hnot2 : ¬ MAX_SUGGESTIONS * 8 ≤ (classifyTag freq q acc t).total := by
      rw [htl]; omega
    simp only [scanTags, scanTagsFull]
    rw [if_neg hnot1, if_neg hnot2]
    exact ih (classifyTag freq q acc t) (by rw [hel]; omega) (by rw [htl]; omega)

/-! ## Tier characterization of a full scan -/

theorem tierCharacterization_scanFull (freq : Str → Nat) (q : Str) (l : List Str) :
    tierCharacterization q freq l (scanTagsFull freq q l ScanAcc.init) := by
  refine ⟨?_, ?_, ?_, ?_⟩
  · intro t f
    rw [scanFull_exact_mem]
    simp only [ScanAcc.init, List.not_mem_nil, false_or]
    constructor
    · rintro ⟨t', ht', hx, hq⟩
      simp only [Prod.mk.injEq] at hx
      obtain ⟨rfl, rfl⟩ := hx
      exact ⟨ht', hq, rfl⟩
    · rintro ⟨ht, hq, rfl⟩
      exact ⟨t, ht, rfl, hq⟩
  · intro t f len
    rw [scanFull_pref_mem]
    simp only [ScanAcc.init, List.not_mem_nil, false_or]
    constructor
    · rintro ⟨t', ht', hx, hp, hq⟩
      simp only [Prod.mk.injEq] at hx
      obtain ⟨rfl, rfl, rfl⟩ := hx
      exact ⟨ht', (isPrefixOf_iff _ _).1 hp, hq, rfl, rfl⟩
    · rintro ⟨ht, hp, hq, rfl, rfl⟩
      exact ⟨t, ht, rfl, (isPrefixOf_iff _ _).2 hp, hq⟩
  · intro t f pos len
    rw [scanFull_word_mem]
    simp only [ScanAcc.init, List.not_mem_nil, false_or]
    constructor
    · rintro ⟨t', ht', pos', hx, hf, hp, hq, hb⟩
      simp only [Prod.mk.injEq] at hx
      obtain ⟨rfl, rfl, rfl, rfl⟩ := hx
      refine ⟨ht', hf, ?_, ?_, rfl, rfl⟩
      · intro hpre
        have : q.isPrefixOf (lowerStr t) = true := (isPrefixOf_iff _ _).2 hpre
        rw [hp] at this
        cases this
      · rw [List.getD_eq_getElem?_getD]
        exact hb
    · rintro ⟨ht, hf, hnp, hb, rfl, rfl⟩
      refine ⟨t, ht, pos, rfl, hf, ?_, ?_, ?_⟩
      · rw [← Bool.not_eq_true]
        intro hp
        exact hnp ((isPrefixOf_iff _ _).1 hp)
      · intro hqe
        refine hnp ?_
        rw [hqe]
      · rw [List.getD_eq_getElem?_getD] at hb
        exact hb
  · intro t f pos len
    rw [scanFull_sub_mem]
    simp only [ScanAcc.init, List.not_mem_nil, false_or]
    constructor
    · rintro ⟨t', ht', pos', hx, hf, hp, hq, hb⟩
      simp only [Prod.mk.injEq] at hx
      obtain ⟨rfl, rfl, rfl, rfl⟩ := hx
      refine ⟨ht', hf, ?_, ?_, rfl, rfl⟩
      · intro hpre
        have : q.isPrefixOf (lowerStr t) = true := (isPrefixOf_iff _ _).2 hpre
        rw [hp] at this
        cases this
      · rw [List.getD_eq_getElem?_getD]
        exact hb
    · rintro ⟨ht, hf, hnp, hb, rfl, rfl⟩
      refine ⟨t, ht, pos, rfl, hf, ?_, ?_, ?_⟩
      · rw [← Bool.not_eq_true]
        intro hp
        exact hnp ((isPrefixOf_iff _ _).1 hp)
      · intro hqe
        refine hnp ?_
        rw [hqe]
      · rw [List.getD_eq_getElem?_getD] at hb
        exact hb

theorem inExactlyOneTier_scanFull (freq : Str → Nat) (q : Str) (l : List Str) :
    ∀ t ∈ l, (findSub q (lowerStr t)).isSome →
      inExactlyOneTier (scanTagsFull freq q l ScanAcc.init) t := by
  intro t ht hsome
  obtain ⟨hc1, hc2, hc3, hc4⟩ := tierCharacterization_scanFull freq q l
  have hany1 : (scanTagsFull freq q l ScanAcc.init).exactM.any (fun x => x.1 = t) = true
      ↔ lowerStr t = q := by
    rw [List.any_eq_true]
    constructor
    · rintro ⟨x, hx, hxt⟩
      have hxt' : x.1 = t := by simpa using hxt
      have hh := (hc1 x.1 x.2).1 hx
      rw [hxt'] at hh
      exact hh.2.1
    · intro hq
      exact ⟨(t, freq t), (hc1 t (freq t)).2 ⟨ht, hq, rfl⟩, by simp⟩
  have hany2 : (scanTagsFull freq q l ScanAcc.init).prefM.any (fun x => x.1 = t) = true
      ↔ (q <+: lowerStr t ∧ lowerStr t ≠ q) := by
    rw [List.any_eq_true]
    constructor
    · rintro ⟨x, hx, hxt⟩
      have hxt' : x.1 = t := by simpa using hxt
      have hh := (hc2 x.1 x.2.1 x.2.2).1 hx
      rw [hxt'] at hh
      exact ⟨hh.2.1, hh.2.2.1⟩
    · rintro ⟨hp, hq⟩
      exact ⟨(t, freq t, t.length), (hc2 t (freq t) t.length).2 ⟨ht, hp, hq, rfl, rfl⟩, by simp⟩
  have hany3 : (scanTagsFull freq q l ScanAcc.init).wordM.any (fun x => x.1 = t) = true
      ↔ (∃ pos, findSub q (lowerStr t) = some pos ∧ ¬ q <+: lowerStr t ∧
          (pos = 0 ∨ (lowerStr t).getD (pos - 1) 'x' ∈ sepChars)) := by
    rw [List.any_eq_true]
    constructor
    · rintro ⟨x, hx, hxt⟩
      have hxt' : x.1 = t := by simpa using hxt
      have hh := (hc3 x.1 x.2.1 x.2.2.1 x.2.2.2).1 hx
      rw [hxt'] at hh
      exact ⟨x.2.2.1, hh.2.1, hh.2.2.1, hh.2.2.2.1⟩
    · rintro ⟨pos, hf, hnp, hb⟩
      exact ⟨(t, freq t, pos, t.length),
        (hc3 t (freq t) pos t.length).2 ⟨ht, hf, hnp, hb, rfl, rfl⟩, by simp⟩
  have hany4 : (scanTagsFull freq q l ScanAcc.init).subM.any (fun x => x.1 = t) = true
      ↔ (∃ pos, findSub q (lowerStr t) = some pos ∧ ¬ q <+: lowerStr t ∧
          ¬ (pos = 0 ∨ (lowerStr t).getD (pos - 1) 'x' ∈ sepChars)) := by
    rw [List.any_eq_true]
    constructor
    · rintro ⟨x, hx, hxt⟩
      have hxt' : x.1 = t := by simpa using hxt
      have hh := (hc4 x.1 x.2.1 x.2.2.1 x.2.2.2).1 hx
      rw [hxt'] at hh
      exact ⟨x.2.2.1, hh.2.1, hh.2.2.1, hh.2.2.2.1⟩
    · rintro ⟨pos, hf, hnp, hb⟩
      exact ⟨(t, freq t, pos, t.length),
        (hc4 t (freq t) pos t.length).2 ⟨ht, hf, hnp, hb, rfl, rfl⟩, by simp⟩
  by_cases hq : lowerStr t = q
  · have b1 := hany1.2 hq
    have b2 : (scanTagsFull freq q l ScanAcc.init).prefM.any (fun x => x.1 = t) = false := by
      rw [← Bool.not_eq_true]
      intro hb
      exact (hany2.1 hb).2 hq
    have b3 : (scanTagsFull freq q l ScanAcc.init).wordM.any (fun x => x.1 = t) = false := by
      rw [← Bool.not_eq_true]
      intro hb
      obtain ⟨pos, _, hnp, _⟩ := hany3.1 hb
      refine hnp ?_
      rw [hq]
    have b4 : (scanTagsFull freq q l ScanAcc.init).subM.any (fun x => x.1 = t) = false := by
      rw [← Bool.not_eq_true]
      intro hb
      obtain ⟨pos, _, hnp, _⟩ := hany4.1 hb
      refine hnp ?_
      rw [hq]
    rw [inExactlyOneTier, b1, b2, b3, b4]
    rfl
  · by_cases hp : q <+: lowerStr t
    · have b1 : (scanTagsFull freq q l ScanAcc.init).exactM.any (fun x => x.1 = t) = false := by
        rw [← Bool.not_eq_true]
        intro hb
        exact hq (hany1.1 hb)
      have b2 := hany2.2 ⟨hp, hq⟩
      have b3 : (scanTagsFull freq q l ScanAcc.init).wordM.any (fun x => x.1 = t) = false := by
        rw [← Bool.not_eq_true]
        intro hb
        obtain ⟨pos, _, hnp, _⟩ := hany3.1 hb
        exact hnp hp
      have b4 : (scanTagsFull freq q l ScanAcc.init).subM.any (fun x => x.1 = t) = false := by
        rw [← Bool.not_eq_true]
        intro hb
        obtain ⟨pos, _, hnp, _⟩ := hany4.1 hb
        exact hnp hp
      rw [inExactlyOneTier, b1, b2, b3, b4]
      rfl
    · obtain ⟨pos, hfp⟩ := Option.isSome_iff_exists.1 hsome
      have b1 : (scanTagsFull freq q l ScanAcc.init).exactM.any (fun x => x.1 = t) = false := by
        rw [← Bool.not_eq_true]
        intro hb
        exact hq (hany1.1 hb)
      have b2 : (scanTagsFull freq q l ScanAcc.init).prefM.any (fun x => x.1 = t) = false := by
        rw [← Bool.not_eq_true]
        intro hb
        exact hp (hany2.1 hb).1
      by_cases hbound : pos = 0 ∨ (lowerStr t).getD (pos - 1) 'x' ∈ sepChars
      · have b3 := hany3.2 ⟨pos, hfp, hp, hbound⟩
        have b4 : (scanTagsFull freq q l ScanAcc.init).subM.any (fun x => x.1 = t) = false := by
          rw [← Bool.not_eq_true]
          intro hb
          obtain ⟨pos', hf', _, hnb⟩ := hany4.1 hb
          rw [hfp] at hf'
          have : pos = pos' := by
            exact Option.some.inj hf'
          rw [← this] at hnb
          exact hnb hbound
        rw [inExactlyOneTier, b1, b2, b3, b4]
        rfl
      · have b4 := hany4.2 ⟨pos, hfp, hp, hbound⟩
        have b3 : (scanTagsFull freq q l ScanAcc.init).wordM.any (fun x => x.1 = t) = false := by
          rw [← Bool.not_eq_true]
          intro hb
          obtain ⟨pos', hf', _, hb'⟩ := hany3.1 hb
          rw [hfp] at hf'
          have : pos = pos' := by
            exact Option.some.inj hf'
          rw [← this] at hb'
          exact hbound hb'
        rw [inExactlyOneTier, b1, b2, b3, b4]
        rfl

/-! ## Search-position specifications -/

theorem findIdxFrom_some_spec (p : Char → Bool) :
    ∀ (l : Str) (i : Nat), findIdxFrom p l = some i →
      i < l.length ∧ (∀ hi : i < l.length, p (l[i]) = true) ∧
        (∀ j, j < i → ∀ hj : j < l.length, p (l[j]) = false) := by
  intro l
  induction l with
  | nil => intro i h; cases h
  | cons c rest ih =>
    intro i h
    rw [findIdxFrom] at h
    by_cases hp : p c = true
    · rw [if_pos hp] at h
      cases h
      refine ⟨by simp, ?_, ?_⟩
      · intro hi
        simpa using hp
      · intro j hj
        omega
    · rw [if_neg hp] at h
      rcases hrec : findIdxFrom p rest with _ | k
      · rw [hrec] at h; cases h
      · rw [hrec] at h
        simp at h
        subst h
        obtain ⟨hk, hv, hmin⟩ := ih k hrec
        refine ⟨by simpa using Nat.succ_lt_succ hk, ?_, ?_⟩
        · intro hi
          rw [List.getElem_cons_succ]
          exact hv hk
        · intro j hj hjl
          match j with
          | 0 =>
            rw [List.getElem_cons_zero]
            simpa using hp
          | j' + 1 =>
            rw [List.getElem_cons_succ]
            exact hmin j' (by omega) (by simpa using hjl)

theorem findIdxFrom_none_spec (p : Char → Bool) :
    ∀ l : Str, findIdxFrom p l = none →
      ∀ j, ∀ hj : j < l.length, p (l[j]) = false := by
  intro l
  induction l with
  | nil => intro _ j hj; simp at hj
  | cons c rest ih =>
    intro h j hj
    rw [findIdxFrom] at h
    by_cases hp : p c = true
    · rw [if_pos hp] at h; cases h
    · rw [if_neg hp] at h
      match j with
      | 0 =>
        rw [List.getElem_cons_zero]
        simpa using hp
      | j' + 1 =>
        rw [List.getElem_cons_succ]
        rcases hrec : findIdxFrom p rest with _ | k
        · exact ih hrec j' (by simpa using hj)
        · rw [hrec] at h; simp at h

theorem rlastIdx_none_spec (p : Char → Bool) :
    ∀ l : Str, rlastIdx p l = none →
      ∀ j, ∀ hj : j < l.length, p (l[j]) = false := by
  intro l
  induction l with
  | nil => intro _ j hj; simp at hj
  | cons c rest ih =>
    intro h j hj
    rw [rlastIdx] at h
    rcases hrec : rlastIdx p rest with _ | k
    · rw [hrec] at h
      by_cases hp : p c = true
      · rw [if_pos hp] at h; cases h
      · match j with
        | 0 =>
          rw [List.getElem_cons_zero]
          simpa using hp
        | j' + 1 =>
          rw [List.getElem_cons_succ]
          exact ih hrec j' (by simpa using hj)
    · rw [hrec] at h; cases h

theorem rlastIdx_some_spec (p : Char → Bool) :
    ∀ (l : Str) (i : Nat), rlastIdx p l = some i →
      i < l.length ∧ (∀ hi : i < l.length, p (l[i]) = true) ∧
        (∀ j, i < j → ∀ hj : j < l.length, p (l[j]) = false) := by
  intro l
  induction l with
  | nil => intro i h; cases h
  | cons c rest ih =>
    intro i h
    rw [rlastIdx] at h
    rcases hrec : rlastIdx p rest with _ | k
    · rw [hrec] at h
      by_cases hp : p c = true
      · rw [if_pos hp] at h
        cases h
        refine ⟨by simp, ?_, ?_⟩
        · intro hi
          rw [List.getElem_cons_zero]
          exact hp
        · intro j hj hjl
          match j with
          | j' + 1 =>
            rw [List.getElem_cons_succ]
            exact rlastIdx_none_spec p rest hrec j' (by simpa using hjl)
      · rw [if_neg hp] at h; cases h
    · rw [hrec] at h
      cases h
      obtain ⟨hk, hv, hmax⟩ := ih k hrec
      refine ⟨by simpa using Nat.succ_lt_succ hk, ?_, ?_⟩
      · intro hi
        rw [List.getElem_cons_succ]
        exact hv hk
      · intro j hj hjl
        match j with
        | j' + 1 =>
          rw [List.getElem_cons_succ]
          exact hmax j' (by omega) (by simpa using hjl)

theorem pyFindCharFrom_none (ch : Char) (s : Str) (start : Nat)
    (h : pyFindCharFrom ch s start = none) :
    ∀ j, start ≤ j → ∀ hj : j < s.length, s[j] ≠ ch := by
  intro j hsj hj
  rw [pyFindCharFrom] at h
  rcases hrec : findIdxFrom (fun d => d = ch) (s.drop start) with _ | k
  · have hk : j - start < (s.drop start).length := by
      rw [List.length_drop]; omega
    have := findIdxFrom_none_spec _ _ hrec (j - start) hk
    rw [List.getElem_drop] at this
    have he : start + (j - start) = j := by omega
    simp only [he] at this
    simpa using this
  · rw [hrec] at h; simp at h

theorem pyFindCharFrom_some (ch : Char) (s : Str) (start i : Nat)
    (h : pyFindCharFrom ch s start = some i) :
    start ≤ i ∧ i < s.length ∧ (∀ hi : i < s.length, s[i] = ch) ∧
      ∀ j, start ≤ j → j < i → ∀ hj : j < s.length, s[j] ≠ ch := by
  rw [pyFindCharFrom] at h
  rcases hrec : findIdxFrom (fun d => d = ch) (s.drop start) with _ | k
  · rw [hrec] at h; cases h
  · rw [hrec] at h
    simp at h
    subst h
    obtain ⟨hk, hv, hmin⟩ := findIdxFrom_some_spec _ _ _ hrec
    rw [List.length_drop] at hk
    refine ⟨by omega, by omega, ?_, ?_⟩
    · intro hi
      have hk' : k < (s.drop start).length := by rw [List.length_drop]; omega
      have := hv hk'
      rw [List.getElem_drop] at this
      have he : start + k = k + start := by omega
      simp only [he] at this
      simpa using this
    · intro j hsj hji hj
      have hk' : j - start < (s.drop start).length := by rw [List.length_drop]; omega
      have := hmin (j - start) (by omega) hk'
      rw [List.getElem_drop] at this
      have he : start + (j - start) = j := by omega
      simp only [he] at this
      simpa using this

theorem pyRfindCharBefore_none (ch : Char) (s : Str) (stop : Nat)
    (h : pyRfindCharBefore ch s stop = none) :
    ∀ j, j < stop → ∀ hj : j < s.length, s[j] ≠ ch := by
  intro j hjs hj
  rw [pyRfindCharBefore] at h
  have hk : j < (s.take stop).length := by
    rw [List.length_take]; omega
  have := rlastIdx_none_spec _ _ h j hk
  rw [List.getElem_take] at this
  simpa using this

theorem pyRfindCharBefore_some (ch : Char) (s : Str) (stop i : Nat)
    (h : pyRfindCharBefore ch s stop = some i) :
    i < stop ∧ i < s.length ∧ (∀ hi : i < s.length, s[i] = ch) ∧
      ∀ j, i < j → j < stop → ∀ hj : j < s.length, s[j] ≠ ch := by
  rw [pyRfindCharBefore] at h
  obtain ⟨hk, hv, hmax⟩ := rlastIdx_some_spec _ _ _ h
  rw [List.length_take] at hk
  refine ⟨by omega, by omega, ?_, ?_⟩
  · intro hi
    have hk' : i < (s.take stop).length := by rw [List.length_take]; omega
    have := hv hk'
    rw [List.getElem_take] at this
    simpa using this
  · intro j hij hjs hj
    have hk' : j < (s.take stop).length := by rw [List.length_take]; omega
    have := hmax j hij hk'
    rw [List.getElem_take] at this
    simpa using this

/-! ## Fragment boundary lemmas -/

theorem take_frag_drop (l : Str) (a b : Nat) (hab : a ≤ b) :
    l = l.take a ++ (l.take b).drop a ++ l.drop b := by
  calc l = l.take b ++ l.drop b := (List.take_append_drop b l).symm
    _ = ((l.take b).take a ++ (l.take b).drop a) ++ l.drop b := by
        conv_lhs => rw [← List.take_append_drop a (l.take b)]
    _ = l.take a ++ (l.take b).drop a ++ l.drop b := by
        rw [List.take_take, Nat.min_eq_left hab]

theorem fragStart_le (text : Str) (cursor : Nat) :
    fragStart text cursor ≤ cursor ∧ fragStart text cursor ≤ text.length := by
  rcases h : pyRfindCharBefore ',' text cursor with _ | i
  · simp [fragStart, h]
  · obtain ⟨h1, h2, _, _⟩ := pyRfindCharBefore_some ',' text cursor i h
    simp only [fragStart, h]
    omega

theorem fragStart_le_fragEnd (text : Str) (cursor : Nat) :
    fragStart text cursor ≤ fragEnd text cursor := by
  obtain ⟨hc, hl⟩ := fragStart_le text cursor
  rcases h : pyFindCharFrom ',' text cursor with _ | i
  · simp only [fragEnd, h]
    exact hl
  · obtain ⟨hi, _, _, _⟩ := pyFindCharFrom_some ',' text cursor i h
    simp only [fragEnd, h]
    omega

theorem fragmentRaw_no_comma (text : Str) (cursor : Nat) :
    ∀ c ∈ fragmentRaw text cursor, c ≠ ',' := by
  intro c hc
  rw [fragmentRaw, List.mem_iff_getElem] at hc
  obtain ⟨k, hk, hck⟩ := hc
  have hlen : fragStart text cursor + k < fragEnd text cursor ∧
      fragStart text cursor + k < text.length := by
    rw [List.length_drop, List.length_take] at hk
    omega
  rw [List.getElem_drop, List.getElem_take] at hck
  subst hck
  by_cases hcur : fragStart text cursor + k < cursor
  · rcases h : pyRfindCharBefore ',' text cursor with _ | i
    · exact pyRfindCharBefore_none ',' text cursor h _ hcur _
    · obtain ⟨_, _, _, hmax⟩ := pyRfindCharBefore_some ',' text cursor i h
      refine hmax _ ?_ hcur _
      have : fragStart text cursor = i + 1 := by simp [fragStart, h]
      omega
  · rcases h : pyFindCharFrom ',' text cursor with _ | i
    · exact pyFindCharFrom_none ',' text cursor h _ (by omega) _
    · obtain ⟨_, _, _, hmin⟩ := pyFindCharFrom_some ',' text cursor i h
      refine hmin _ (by omega) ?_ _
      have : fragEnd text cursor = i := by simp [fragEnd, h]
      omega

theorem fragStart_boundary (text : Str) (cursor : Nat) :
    fragStart text cursor = 0 ∨
      ∃ h : fragStart text cursor - 1 < text.length,
        text[fragStart text cursor - 1] = ',' := by
  rcases h : pyRfindCharBefore ',' text cursor with _ | i
  · left
    simp [fragStart, h]
  · right
    obtain ⟨_, hl, hv, _⟩ := pyRfindCharBefore_some ',' text cursor i h
    have he : fragStart text cursor - 1 = i := by simp [fragStart, h]
    refine ⟨by rw [he]; exact hl, ?_⟩
    simp only [he]
    exact hv hl

theorem fragEnd_boundary (text : Str) (cursor : Nat) :
    fragEnd text cursor = text.length ∨
      ∃ h : fragEnd text cursor < text.length, text[fragEnd text cursor] = ',' := by
  rcases h : pyFindCharFrom ',' text cursor with _ | i
  · left
    simp [fragEnd, h]
  · right
    obtain ⟨_, hl, hv, _⟩ := pyFindCharFrom_some ',' text cursor i h
    have he : fragEnd text cursor = i := by simp [fragEnd, h]
    refine ⟨by rw [he]; exact hl, ?_⟩
    simp only [he]
    exact hv hl

theorem selStart_le (text : Str) (cursor : Nat) :
    selStart text cursor ≤ cursor ∧ selStart text cursor ≤ text.length := by
  rcases h1 : pyRfindCharBefore ',' text cursor with _ | i <;>
    rcases h2 : pyRfindCharBefore ' ' text cursor with _ | j
  · simp [selStart, selLeft, h1, h2]
  · obtain ⟨hj1, hj2, _, _⟩ := pyRfindCharBefore_some ' ' text cursor j h2
    simp only [selStart, selLeft, h1, h2]
    omega
  · obtain ⟨hi1, hi2, _, _⟩ := pyRfindCharBefore_some ',' text cursor i h1
    simp only [selStart, selLeft, h1, h2]
    omega
  · obtain ⟨hi1, hi2, _, _⟩ := pyRfindCharBefore_some ',' text cursor i h1
    obtain ⟨hj1, hj2, _, _⟩ := pyRfindCharBefore_some ' ' text cursor j h2
    simp only [selStart, selLeft, h1, h2]
    constructor
    · omega
    · omega

theorem selStart_le_selEnd (text : Str) (cursor : Nat) :
    selStart text cursor ≤ selEnd text cursor := by
  obtain ⟨hc, hl⟩ := selStart_le text cursor
  rcases h1 : pyFindCharFrom ',' text cursor with _ | i <;>
    rcases h2 : pyFindCharFrom ' ' text cursor with _ | j
  · simp only [selEnd, selRight, h1, h2]
    exact hl
  · obtain ⟨hj1, _, _, _⟩ := pyFindCharFrom_some ' ' text cursor j h2
    simp only [selEnd, selRight, h1, h2]
    omega
  · obtain ⟨hi1, _, _, _⟩ := pyFindCharFrom_some ',' text cursor i h1
    simp only [selEnd, selRight, h1, h2]
    omega
  · obtain ⟨hi1, _, _, _⟩ := pyFindCharFrom_some ',' text cursor i h1
    obtain ⟨hj1, _, _, _⟩ := pyFindCharFrom_some ' ' text cursor j h2
    simp only [selEnd, selRight, h1, h2]
    omega

theorem selStart_gt_left_comma (text : Str) (cursor i : Nat)
    (h : pyRfindCharBefore ',' text cursor = some i) : i < selStart text cursor := by
  rcases h2 : pyRfindCharBefore ' ' text cursor with _ | j <;>
    simp only [selStart, selLeft, h, h2] <;> omega

theorem selStart_gt_left_space (text : Str) (cursor j : Nat)
    (h : pyRfindCharBefore ' ' text cursor = some j) : j < selStart text cursor := by
  rcases h1 : pyRfindCharBefore ',' text cursor with _ | i <;>
    simp only [selStart, selLeft, h1, h] <;> omega

theorem selEnd_le_right_comma (text : Str) (cursor i : Nat)
    (h : pyFindCharFrom ',' text cursor = some i) : selEnd text cursor ≤ i := by
  rcases h2 : pyFindCharFrom ' ' text cursor with _ | j <;>
    simp only [selEnd, selRight, h, h2] <;> omega

theorem selEnd_le_right_space (text : Str) (cursor j : Nat)
    (h : pyFindCharFrom ' ' text cursor = some j) : selEnd text cursor ≤ j := by
  rcases h1 : pyFindCharFrom ',' text cursor with _ | i <;>
    simp only [selEnd, selRight, h1, h] <;> omega

theorem selFragment_no_sep (text : Str) (cursor : Nat) :
    ∀ c ∈ selFragment text cursor, ¬ (c = ',' ∨ c = ' ') := by
  intro c hc hor
  rw [selFragment, List.mem_iff_getElem] at hc
  obtain ⟨k, hk, hck⟩ := hc
  have hlen : selStart text cursor + k < selEnd text cursor ∧
      selStart text cursor + k < text.length := by
    rw [List.length_drop, List.length_take] at hk
    omega
  rw [List.getElem_drop, List.getElem_take] at hck
  subst hck
  rcases hor with hch | hch
  · by_cases hcur : selStart text cursor + k < cursor
    · rcases h : pyRfindCharBefore ',' text cursor with _ | i
      · exact pyRfindCharBefore_none ',' text cursor h _ hcur hlen.2 hch
      · obtain ⟨_, _, _, hmax⟩ := pyRfindCharBefore_some ',' text cursor i h
        have := selStart_gt_left_comma text cursor i h
        exact hmax _ (by omega) hcur hlen.2 hch
    · rcases h : pyFindCharFrom ',' text cursor with _ | i
      · exact pyFindCharFrom_none ',' text cursor h _ (by omega) hlen.2 hch
      · obtain ⟨_, _, _, hmin⟩ := pyFindCharFrom_some ',' text cursor i h
        have := selEnd_le_right_comma text cursor i h
        exact hmin _ (by omega) (by omega) hlen.2 hch
  · by_cases hcur : selStart text cursor + k < cursor
    · rcases h : pyRfindCharBefore ' ' text cursor with _ | i
      · exact pyRfindCharBefore_none ' ' text cursor h _ hcur hlen.2 hch
      · obtain ⟨_, _, _, hmax⟩ := pyRfindCharBefore_some ' ' text cursor i h
        have := selStart_gt_left_space text cursor i h
        exact hmax _ (by omega) hcur hlen.2 hch
    · rcases h : pyFindCharFrom ' ' text cursor with _ | i
      · exact pyFindCharFrom_none ' ' text cursor h _ (by omega) hlen.2 hch
      · obtain ⟨_, _, _, hmin⟩ := pyFindCharFrom_some ' ' text cursor i h
        have := selEnd_le_right_space text cursor i h
        exact hmin _ (by omega) (by omega) hlen.2 hch

theorem selAddSeparator_shape (text : Str) (cursor : Nat) :
    selAddSeparator text cursor = [] ∨ selAddSeparator text cursor = [' '] := by
  by_cases h : pyStrip (text.drop (selEnd text cursor)) = []
  · right
    simp [selAddSeparator, h]
  · rcases hd : text.drop (selEnd text cursor) with _ | ⟨c, rest⟩
    · rw [hd] at h
      simp [pyStrip] at h
    · rw [hd] at h
      by_cases hsp : pyIsSpace c = true
      · left
        simp [selAddSeparator, h, hd, hsp]
      · right
        simp [selAddSeparator, h, hd, hsp]

/-! ## Tag-map dictionary lemmas -/

theorem mapGet_cons (a : Str) (b : Nat) (rest : TagMap) (k : Str) :
    mapGet ((a, b) :: rest) k = if a = k then some b else mapGet rest k := by
  by_cases h : a = k
  · rw [mapGet, List.find?_cons_of_pos _ (by simpa using h)]
    simp [h]
  · rw [mapGet, List.find?_cons_of_neg _ (by simpa using h)]
    simp [h, mapGet]

theorem mapHasKey_cons (a : Str) (b : Nat) (rest : TagMap) (k : Str) :
    mapHasKey ((a, b) :: rest) k = (decide (a = k) || mapHasKey rest k) := by
  simp [mapHasKey]

theorem mapHasKey_iff_isSome (m : TagMap) (k : Str) :
    mapHasKey m k = true ↔ (mapGet m k).isSome = true := by
  induction m with
  | nil => simp [mapHasKey, mapGet]
  | cons p rest ih =>
    obtain ⟨a, b⟩ := p
    by_cases h : a = k
    · simp [mapHasKey_cons, mapGet_cons, h]
    · simp [mapHasKey_cons, mapGet_cons, h, ih]

theorem mapGet_append_sing_ne (m : TagMap) (k' k : Str) (v : Nat) (h : k' ≠ k) :
    mapGet (m ++ [(k', v)]) k = mapGet m k := by
  induction m with
  | nil => simp [mapGet_cons, h, mapGet]
  | cons p rest ih =>
    obtain ⟨a, b⟩ := p
    by_cases ha : a = k
    · simp [List.cons_append, mapGet_cons, ha]
    · simp [List.cons_append, mapGet_cons, ha, ih]

theorem mapGet_append_sing_self (m : TagMap) (k : Str) (v : Nat)
    (h : mapGet m k = none) : mapGet (m ++ [(k, v)]) k = some v := by
  induction m with
  | nil => simp [mapGet_cons]
  | cons p rest ih =>
    obtain ⟨a, b⟩ := p
    rw [mapGet_cons] at h
    by_cases ha : a = k
    · rw [if_pos ha] at h
      cases h
    · rw [if_neg ha] at h
      simp [List.cons_append, mapGet_cons, ha, ih h]

theorem mapSet_get_self (m : TagMap) (k : Str) (v : Nat) :
    mapGet (mapSet m k v) k = some v := by
  rw [mapSet]
  by_cases h : mapHasKey m k = true
  · rw [if_pos h]
    induction m with
    | nil => simp [mapHasKey] at h
    | cons p rest ih =>
      obtain ⟨a, b⟩ := p
      by_cases ha : a = k
      · simp [List.map_cons, ha, mapGet_cons]
      · rw [mapHasKey_cons] at h
        simp only [ha, decide_eq_true_eq, Bool.false_or] at h
        simp [ha] at h
        have hh : (if (a, b).1 = k then (k, v) else (a, b)) = (a, b) := by simp [ha]
        rw [List.map_cons, hh, mapGet_cons, if_neg ha]
        exact ih h
  · rw [if_neg h]
    induction m with
    | nil => simp [mapGet_cons]
    | cons p rest ih =>
      obtain ⟨a, b⟩ := p
      rw [mapHasKey_cons] at h
      have ha : ¬ a = k := by
        intro he
        exact h (by simp [he])
      have hr : ¬ mapHasKey rest k = true := by
        intro he
        exact h (by simp [he])
      simp [List.cons_append, mapGet_cons, ha, ih hr]

theorem mapSet_get_ne (m : TagMap) (k' k : Str) (v : Nat) (h : k' ≠ k) :
    mapGet (mapSet m k' v) k = mapGet m k := by
  rw [mapSet]
  by_cases hh : mapHasKey m k' = true
  · rw [if_pos hh]
    clear hh
    induction m with
    | nil => simp
    | cons p rest ih =>
      obtain ⟨a, b⟩ := p
      by_cases ha : a = k'
      · have hf : (if (a, b).1 = k' then (k', v) else (a, b)) = (k', v) := by simp [ha]
        rw [List.map_cons, hf, mapGet_cons, mapGet_cons]
        rw [if_neg h, if_neg (by rw [ha]; exact h)]
        exact ih
      · have hf : (if (a, b).1 = k' then (k', v) else (a, b)) = (a, b) := by simp [ha]
        rw [List.map_cons, hf, mapGet_cons, mapGet_cons]
        by_cases hak : a = k
        · simp [hak]
        · rw [if_neg hak, if_neg hak]
          exact ih
  · rw [if_neg hh]
    exact mapGet_append_sing_ne m k' k v h

/-! ## Row-processing lemmas -/

theorem altFold_preserve (w : Nat) :
    ∀ (alts : List Str) (m : TagMap) (a : Str) (v : Nat), mapGet m a = some v →
      mapGet (alts.foldl (fun acc alt =>
        if alt ≠ [] ∧ ¬ mapHasKey acc alt then acc ++ [(alt, w)] else acc) m) a = some v := by
  intro alts
  induction alts with
  | nil => intro m a v h; simpa using h
  | cons alt rest ih =>
    intro m a v h
    rw [List.foldl_cons]
    apply ih
    by_cases hc : alt ≠ [] ∧ ¬ mapHasKey m alt = true
    · rw [if_pos hc]
      have hne : alt ≠ a := by
        intro he
        apply hc.2
        rw [he, mapHasKey_iff_isSome, h]
        rfl
      rw [mapGet_append_sing_ne m alt a w hne]
      exact h
    · rw [if_neg hc]
      exact h

theorem altFold_sound (w : Nat) :
    ∀ (alts : List Str) (m : TagMap) (a : Str) (v : Nat),
      mapGet (alts.foldl (fun acc alt =>
        if alt ≠ [] ∧ ¬ mapHasKey acc alt then acc ++ [(alt, w)] else acc) m) a = some v →
      mapGet m a = some v ∨ (a ∈ alts ∧ a ≠ [] ∧ v = w) := by
  intro alts
  induction alts with
  | nil =>
    intro m a v h
    left
    simpa using h
  | cons alt rest ih =>
    intro m a v h
    rw [List.foldl_cons] at h
    rcases ih _ a v h with h1 | ⟨hm, hne, hv⟩
    · by_cases hc : alt ≠ [] ∧ ¬ mapHasKey m alt = true
      · rw [if_pos hc] at h1
        by_cases ha : alt = a
        · subst ha
          have hn : mapGet m alt = none := by
            rcases ho : mapGet m alt with _ | v'
            · rfl
            · exact absurd (by rw [mapHasKey_iff_isSome, ho]; rfl) hc.2
          rw [mapGet_append_sing_self m alt w hn] at h1
          right
          exact ⟨List.mem_cons_self alt rest, hc.1, (Option.some.inj h1).symm⟩
        · rw [mapGet_append_sing_ne m alt a w ha] at h1
          exact Or.inl h1
      · rw [if_neg hc] at h1
        exact Or.inl h1
    · right
      exact ⟨List.mem_cons_of_mem _ hm, hne, hv⟩

theorem processRow_primary (m : TagMap) (row : List Str) (a : Str)
    (h : isPrimaryRow a row) : mapGet (processRow m row) a = some (rowFreq row) := by
  obtain ⟨hlen, hmain, hne⟩ := h
  simp only [processRow]
  rw [if_neg (by omega)]
  apply altFold_preserve
  rw [hmain, if_pos hne]
  exact mapSet_get_self m a (rowFreq row)

theorem processRow_preserve (m : TagMap) (row : List Str) (a : Str) (v : Nat)
    (hv : mapGet m a = some v) (hnp : ¬ isPrimaryRow a row) :
    mapGet (processRow m row) a = some v := by
  by_cases hlt : row.length < 3
  · simp only [processRow]
    rw [if_pos hlt]
    exact hv
  · simp only [processRow]
    rw [if_neg hlt]
    apply altFold_preserve
    by_cases hm : rowMainTag row ≠ []
    · rw [if_pos hm]
      have hne : rowMainTag row ≠ a := by
        intro he
        exact hnp ⟨by omega, he, by rw [← he]; exact hm⟩
      rw [mapSet_get_ne _ _ _ _ hne]
      exact hv
    · rw [if_neg hm]
      exact hv

theorem processRow_sound (m : TagMap) (row : List Str) (a : Str) (v : Nat)
    (h : mapGet (processRow m row) a = some v) :
    mapGet m a = some v ∨ (isPrimaryRow a row ∧ v = rowFreq row) ∨
      (3 ≤ row.length ∧ a ∈ rowAlts row ∧ a ≠ [] ∧ v = max 1 (rowFreq row / 2)) := by
  by_cases hlt : row.length < 3
  · left
    simp only [processRow] at h
    rw [if_pos hlt] at h
    exact h
  · simp only [processRow] at h
    rw [if_neg hlt] at h
    rcases altFold_sound _ _ _ _ _ h with h1 | ⟨hm, hne, hv⟩
    · by_cases hmt : rowMainTag row ≠ []
      · rw [if_pos hmt] at h1
        by_cases ha : rowMainTag row = a
        · rw [ha, mapSet_get_self] at h1
          right; left
          exact ⟨⟨by omega, ha, by rw [← ha]; exact hmt⟩, (Option.some.inj h1).symm⟩
        · rw [mapSet_get_ne _ _ _ _ ha] at h1
          exact Or.inl h1
      · rw [if_neg hmt] at h1
        exact Or.inl h1
    · right; right
      exact ⟨by omega, hm, hne, hv⟩

theorem processAll_preserve :
    ∀ (rows : List (List Str)) (m : TagMap) (a : Str) (v : Nat),
      mapGet m a = some v → (∀ r ∈ rows, ¬ isPrimaryRow a r) →
      mapGet (rows.foldl processRow m) a = some v := by
  intro rows
  induction rows with
  | nil => intro m a v hv _; simpa using hv
  | cons r rest ih =>
    intro m a v hv hnp
    rw [List.foldl_cons]
    exact ih _ a v
      (processRow_preserve m r a v hv (hnp r (List.mem_cons_self r rest)))
      (fun r' hr' => hnp r' (List.mem_cons_of_mem _ hr'))

theorem processAll_primary :
    ∀ (rows : List (List Str)) (m : TagMap) (a : Str) (w : Nat),
      (∃ r ∈ rows, isPrimaryRow a r) →
      (∀ r ∈ rows, isPrimaryRow a r → rowFreq r = w) →
      mapGet (rows.foldl processRow m) a = some w := by
  intro rows
  induction rows with
  | nil =>
    intro m a w hex _
    rcases hex with ⟨r, hr, _⟩
    simp at hr
  | cons r rest ih =>
    intro m a w hex hall
    rw [List.foldl_cons]
    by_cases hrest : ∃ r' ∈ rest, isPrimaryRow a r'
    · exact ih _ a w hrest (fun r' hr' hp => hall r' (List.mem_cons_of_mem _ hr') hp)
    · rcases hex with ⟨r0, hr0, hp0⟩
      rcases List.mem_cons.1 hr0 with rfl | hr0'
      · have h1 : mapGet (processRow m r0) a = some (rowFreq r0) :=
          processRow_primary m r0 a hp0
        rw [hall r0 (List.mem_cons_self r0 rest) hp0] at h1
        exact processAll_preserve rest _ a w h1
          (fun r' hr' hp => hrest ⟨r', hr', hp⟩)
      · exact absurd ⟨r0, hr0', hp0⟩ hrest

theorem processAll_sound :
    ∀ (rows : List (List Str)) (m : TagMap) (a : Str) (v : Nat),
      mapGet (rows.foldl processRow m) a = some v →
      mapGet m a = some v ∨ (∃ r ∈ rows, isPrimaryRow a r ∧ v = rowFreq r) ∨
        (∃ r ∈ rows, 3 ≤ r.length ∧ a ∈ rowAlts r ∧ a ≠ [] ∧
          v = max 1 (rowFreq r / 2)) := by
  intro rows
  induction rows with
  | nil =>
    intro m a v h
    left
    simpa using h
  | cons r rest ih =>
    intro m a v h
    rw [List.foldl_cons] at h
    rcases ih _ a v h with h1 | ⟨r', hr', hp', hv'⟩ | ⟨r', hr', hl', hm', hne', hv'⟩
    · rcases processRow_sound m r a v h1 with h2 | ⟨hp, hv⟩ | ⟨hl, hm, hne, hv⟩
      · exact Or.inl h2
      · exact Or.inr (Or.inl ⟨r, List.mem_cons_self r rest, hp, hv⟩)
      · exact Or.inr (Or.inr ⟨r, List.mem_cons_self r rest, hl, hm, hne, hv⟩)
    · exact Or.inr (Or.inl ⟨r', List.mem_cons_of_mem _ hr', hp', hv'⟩)
    · exact Or.inr (Or.inr ⟨r', List.mem_cons_of_mem _ hr', hl', hm', hne', hv'⟩)

theorem mapSet_hasKey_mono (m : TagMap) (k' k : Str) (v : Nat)
    (h : mapHasKey m k = true) : mapHasKey (mapSet m k' v) k = true := by
  by_cases he : k' = k
  · rw [mapHasKey_iff_isSome, he, mapSet_get_self]
    rfl
  · rw [mapHasKey_iff_isSome, mapSet_get_ne _ _ _ _ he, ← mapHasKey_iff_isSome]
    exact h

theorem processRow_hasKey_mono (m : TagMap) (row : List Str) (k : Str)
    (h : mapHasKey m k = true) : mapHasKey (processRow m row) k = true := by
  rw [mapHasKey_iff_isSome] at h
  rcases ho : mapGet m k with _ | v
  · rw [ho] at h; cases h
  · by_cases hp : isPrimaryRow k row
    · rw [mapHasKey_iff_isSome, processRow_primary m row k hp]
      rfl
    · rw [mapHasKey_iff_isSome, processRow_preserve m row k v ho hp]
      rfl

theorem processRow_adds_main (m : TagMap) (row : List Str)
    (h3 : 3 ≤ row.length) (hm : rowMainTag row ≠ []) :
    mapHasKey (processRow m row) (rowMainTag row) = true := by
  rw [mapHasKey_iff_isSome,
    processRow_primary m row (rowMainTag row) ⟨h3, rfl, hm⟩]
  rfl

theorem processAll_hasKey_mono :
    ∀ (rows : List (List Str)) (m : TagMap) (k : Str),
      mapHasKey m k = true → mapHasKey (rows.foldl processRow m) k = true := by
  intro rows
  induction rows with
  | nil => intro m k h; simpa using h
  | cons r rest ih =>
    intro m k h
    rw [List.foldl_cons]
    exact ih _ k (processRow_hasKey_mono m r k h)

theorem processAll_hasKey_of_mem :
    ∀ (rows : List (List Str)) (m : TagMap) (r : List Str),
      r ∈ rows → 3 ≤ r.length → rowMainTag r ≠ [] →
      mapHasKey (rows.foldl processRow m) (rowMainTag r) = true := by
  intro rows
  induction rows with
  | nil => intro m r hr; simp at hr
  | cons r0 rest ih =>
    intro m r hr h3 hm
    rw [List.foldl_cons]
    rcases List.mem_cons.1 hr with rfl | hr'
    · exact processAll_hasKey_mono rest _ _ (processRow_adds_main m r h3 hm)
    · exact ih _ r hr' h3 hm

/-! ## Character-class lemmas -/

theorem char_range_of_isDigit (c : Char) (h : c.isDigit = true) :
    48 ≤ c.toNat ∧ c.toNat ≤ 57 := by
  simp [Char.isDigit] at h
  obtain ⟨h1, h2⟩ := h
  rw [UInt32.le_def] at h1 h2
  exact ⟨by simpa using h1, by simpa using h2⟩

theorem char_range_of_isLower (c : Char) (h : c.isLower = true) :
    97 ≤ c.toNat ∧ c.toNat ≤ 122 := by
  simp [Char.isLower] at h
  obtain ⟨h1, h2⟩ := h
  rw [UInt32.le_def] at h1 h2
  exact ⟨by simpa using h1, by simpa using h2⟩

theorem toLower_eq_self (c : Char) (h : ¬ (65 ≤ c.toNat ∧ c.toNat ≤ 90)) :
    c.toLower = c := by
  simp only [Char.toLower]
  rw [if_neg (by omega)]

theorem roundtrip_char (c : Char)
    (h : c.isDigit = true ∨ c.isLower = true ∨ c = '_') :
    (fun d => if d = ' ' then '_' else d)
      (Char.toLower ((fun d => if d = '_' || d = '+' then ' ' else d) c)) = c := by
  rcases h with hd | hl | rfl
  · obtain ⟨h1, h2⟩ := char_range_of_isDigit c hd
    have hne : ((fun d => if d = '_' || d = '+' then ' ' else d) c) = c := by
      simp only []
      rw [if_neg]
      simp only [Bool.or_eq_true, decide_eq_true_eq]
      rintro (rfl | rfl)
      · exact absurd h2 (by decide)
      · exact absurd h1 (by decide)
    rw [hne, toLower_eq_self c (by omega)]
    simp only []
    rw [if_neg]
    rintro rfl
    exact absurd h1 (by decide)
  · obtain ⟨h1, h2⟩ := char_range_of_isLower c hl
    have hne : ((fun d => if d = '_' || d = '+' then ' ' else d) c) = c := by
      simp only []
      rw [if_neg]
      simp only [Bool.or_eq_true, decide_eq_true_eq]
      rintro (rfl | rfl)
      · exact absurd h1 (by decide)
      · exact absurd h1 (by decide)
    rw [hne, toLower_eq_self c (by omega)]
    simp only []
    rw [if_neg]
    rintro rfl
    exact absurd h1 (by decide)
  · decide

theorem map_id_of_mem {f : Char → Char} :
    ∀ l : Str, (∀ c ∈ l, f c = c) → l.map f = l := by
  intro l
  induction l with
  | nil => intro _; rfl
  | cons c rest ih =>
    intro h
    rw [List.map_cons, h c (List.mem_cons_self c rest),
      ih (fun d hd => h d (List.mem_cons_of_mem c hd))]

theorem pyIsSpace_toLower (c : Char) (h : pyIsSpace c = true) :
    Char.toLower c = c := by
  simp only [pyIsSpace, Bool.or_eq_true, decide_eq_true_eq] at h
  rcases h with ((((rfl | rfl) | rfl) | rfl) | rfl) | rfl <;> decide

theorem pyStrip_all_space (s : Str) (h : ∀ c ∈ s, pyIsSpace c = true) :
    pyStrip s = [] := by
  rw [pyStrip, List.dropWhile_eq_nil_iff.2 h]
  rfl

/-! ## Output soundness helper -/

theorem mem_assemble (acc : ScanAcc) (s : Str) (h : s ∈ assembleSuggestions acc) :
    (∃ f, (s, f) ∈ acc.exactM) ∨ (∃ f len, (s, f, len) ∈ acc.prefM) ∨
      (∃ f pos len, (s, f, pos, len) ∈ acc.wordM) ∨
      (∃ f pos len, (s, f, pos, len) ∈ acc.subM) := by
  simp only [assembleSuggestions] at h
  have h1 := List.take_subset _ _ h
  have h2 := ((mem_dedupKeepFirst s _ []).1 h1).1
  rcases List.mem_append.1 h2 with h3 | h3
  rcases List.mem_append.1 h3 with h4 | h4
  rcases List.mem_append.1 h4 with h5 | h5
  · obtain ⟨x, hx, rfl⟩ := List.mem_map.1 h5
    exact Or.inl ⟨x.2, (mem_stableSort leExact x _).1 hx⟩
  · obtain ⟨x, hx, rfl⟩ := List.mem_map.1 h5
    exact Or.inr (Or.inl ⟨x.2.1, x.2.2, (mem_stableSort lePref x _).1 hx⟩)
  · obtain ⟨x, hx, rfl⟩ := List.mem_map.1 h4
    exact Or.inr (Or.inr (Or.inl
      ⟨x.2.1, x.2.2.1, x.2.2.2, (mem_stableSort leQuad x _).1 hx⟩))
  · obtain ⟨x, hx, rfl⟩ := List.mem_map.1 h3
    exact Or.inr (Or.inr (Or.inr
      ⟨x.2.1, x.2.2.1, x.2.2.2, (mem_stableSort leQuad x _).1 hx⟩))

/-! ## Claim theorems -/

/-- C1 (amended): for every non-empty normalized query and non-empty index,
`find_suggestions` classifies each matching tag of the scanned prefix of the
index (the scan may stop early after two exact matches or `limit × 8`
candidates) into exactly one of the four tiers, where the word-boundary test
inspects the first occurrence of the query; each tier is sorted by descending
weight, tiers 2-4 breaking ties by ascending first-occurrence position (0 for
prefix matches) then ascending tag length; the tiers are concatenated in
priority order, deduplicated preserving first occurrence, and truncated to
`MAX_SUGGESTIONS`. -/
theorem find_suggestions_tier_structure :
    ∀ (tags : List Str) (freq : Str → Nat) (query : Str),
      pyStrip (lowerStr query) ≠ [] → tags ≠ [] →
      ∃ n, rankCharacterization tags freq query n := by
  intro tags freq query hq htags
  obtain ⟨n, hn⟩ := scan_eq_full_take freq (pyStrip (lowerStr query)) tags ScanAcc.init
  refine ⟨n, hn, ?_, tierCharacterization_scanFull _ _ _,
    inExactlyOneTier_scanFull _ _ _,
    pairwise_stableSort _ leExact_total leExact_trans _,
    pairwise_stableSort _ lePref_total lePref_trans _,
    pairwise_stableSort _ leQuad_total leQuad_trans _,
    pairwise_stableSort _ leQuad_total leQuad_trans _⟩
  simp only [find_suggestions]
  rw [if_neg (not_or.2 ⟨hq, htags⟩), hn]

/-- Witness for C1 at a concrete index and query. -/
theorem find_suggestions_tier_structure_witness :
    (pyStrip (lowerStr ("sa".toList)) ≠ [] ∧ (["safe".toList] : List Str) ≠ []) ∧
      ∃ n, rankCharacterization ["safe".toList] (fun _ => 0) ("sa".toList) n :=
  ⟨⟨by decide, by decide⟩,
    find_suggestions_tier_structure ["safe".toList] (fun _ => 0) ("sa".toList)
      (by decide) (by decide)⟩

/-- Counterexample to C1 as frozen: the claim's word-boundary tier accepts an
occurrence at ANY separator-preceded position, but the code inspects only the
FIRST occurrence.  For query `oc`, tag `xoc_oc` has a word-boundary occurrence
(after `_`) so the claim ranks it in tier 3 ahead of the generic match `zoc`,
yet the code returns `zoc` first. -/
theorem find_suggestions_word_boundary_cex :
    find_suggestions ["xoc_oc".toList, "zoc".toList] (fun _ => 0) ("oc".toList)
      = ["zoc".toList, "xoc_oc".toList] ∧
    specTierRank ("oc".toList) ("xoc_oc".toList) = 2 ∧
    specTierRank ("oc".toList) ("zoc".toList) = 3 ∧
    ¬ tiersRespected ("oc".toList)
        (find_suggestions ["xoc_oc".toList, "zoc".toList] (fun _ => 0) ("oc".toList)) := by
  refine ⟨by decide, by decide, by decide, by decide⟩

/-- C2 (amended): the short-circuited scan returns exactly the full-scan
ranking whenever the full index yields fewer than 2 exact matches and fewer
than `MAX_SUGGESTIONS × 8` total candidates, so that neither early exit can
fire; in general the early exits can change the returned list. -/
theorem find_suggestions_short_circuit_equiv :
    ∀ (tags : List Str) (freq : Str → Nat) (query : Str),
      exactCount (pyStrip (lowerStr query)) tags < 2 →
      matchCount (pyStrip (lowerStr query)) tags < MAX_SUGGESTIONS * 8 →
      find_suggestions tags freq query = find_suggestions_full tags freq query := by
  intro tags freq query h1 h2
  simp only [find_suggestions, find_suggestions_full]
  by_cases hc : pyStrip (lowerStr query) = [] ∨ tags = []
  · rw [if_pos hc, if_pos hc]
  · rw [if_neg hc, if_neg hc,
      scan_eq_full_of_bounds freq (pyStrip (lowerStr query)) tags ScanAcc.init
        (by simpa [ScanAcc.init] using h1)
        (by simpa [ScanAcc.init, ScanAcc.total] using h2)]

/-- Witness for C2 at a concrete index and query. -/
theorem find_suggestions_short_circuit_equiv_witness :
    (exactCount (pyStrip (lowerStr ("ab".toList))) ["ab".toList] < 2 ∧
      matchCount (pyStrip (lowerStr ("ab".toList))) ["ab".toList] < MAX_SUGGESTIONS * 8) ∧
    find_suggestions ["ab".toList] (fun _ => 0) ("ab".toList)
      = find_suggestions_full ["ab".toList] (fun _ => 0) ("ab".toList) :=
  ⟨⟨by decide, by decide⟩,
    find_suggestions_short_circuit_equiv ["ab".toList] (fun _ => 0) ("ab".toList)
      (by decide) (by decide)⟩

/-- Counterexample to C2 as frozen: with two case-variant exact matches the
scan stops before reaching the prefix match `abc`, so the short-circuited
result differs from the full scan. -/
theorem find_suggestions_short_circuit_cex :
    find_suggestions ["AB".toList, "ab".toList, "abc".toList] (fun _ => 0) ("ab".toList)
      = ["AB".toList, "ab".toList] ∧
    find_suggestions_full ["AB".toList, "ab".toList, "abc".toList] (fun _ => 0) ("ab".toList)
      = ["AB".toList, "ab".toList, "abc".toList] ∧
    find_suggestions ["AB".toList, "ab".toList, "abc".toList] (fun _ => 0) ("ab".toList)
      ≠ find_suggestions_full ["AB".toList, "ab".toList, "abc".toList] (fun _ => 0)
          ("ab".toList) := by
  refine ⟨by decide, by decide, by decide⟩

/-- C3: evaluation of the insertion scenario.  For buffer `"safe, "`, cursor 6
and chosen tag `rainbow_dash`, the code inserts the case-preserving display
form `"rainbow dash"` with a space separator and cursor 19 — not the
title-cased `"Rainbow Dash"` its own docstring and tests expect. -/
theorem select_suggestion_rainbow_dash_result :
    select_suggestion ("safe, ".toList) 6 ("rainbow_dash".toList)
      = ("safe, rainbow dash ".toList, 19) ∧
    convert_tag_for_display ("rainbow_dash".toList) = "rainbow dash".toList := by
  refine ⟨by decide, by decide⟩

/-- C4 (amended): `get_current_tag_part` returns the comma-delimited fragment
TRIMMED of surrounding whitespace (the raw slice is not returned); the
boundaries are the nearest comma strictly before the cursor and the nearest
comma at or after it, the fragment contains no comma, and the buffer
decomposes as prefix ++ raw-fragment ++ suffix around it. -/
theorem get_current_tag_part_spec :
    ∀ (text : Str) (cursorPos : Nat),
      get_current_tag_part text cursorPos = pyStrip (fragmentRaw text cursorPos) ∧
      text = text.take (fragStart text cursorPos) ++ fragmentRaw text cursorPos ++
        text.drop (fragEnd text cursorPos) ∧
      (∀ c ∈ fragmentRaw text cursorPos, c ≠ ',') ∧
      (fragStart text cursorPos = 0 ∨
        ∃ h : fragStart text cursorPos - 1 < text.length,
          text[fragStart text cursorPos - 1] = ',') ∧
      (fragEnd text cursorPos = text.length ∨
        ∃ h : fragEnd text cursorPos < text.length,
          text[fragEnd text cursorPos] = ',') := by
  intro text cursorPos
  refine ⟨rfl, ?_, fragmentRaw_no_comma text cursorPos,
    fragStart_boundary text cursorPos, fragEnd_boundary text cursorPos⟩
  rw [fragmentRaw]
  exact take_frag_drop text _ _ (fragStart_le_fragEnd text cursorPos)

/-- Witness for C4 at a concrete buffer and cursor. -/
theorem get_current_tag_part_spec_witness :
    get_current_tag_part ("x, y".toList) 3
      = pyStrip (fragmentRaw ("x, y".toList) 3) :=
  (get_current_tag_part_spec ("x, y".toList) 3).1

/-- Counterexample to C4 as frozen: the claim says the returned text is the
raw, untrimmed substring with its whitespace preserved, but the code returns
`fragment.strip()`. -/
theorem get_current_tag_part_trim_cex :
    fragmentRaw ("a, b ".toList) 3 = " b ".toList ∧
    get_current_tag_part ("a, b ".toList) 3 = "b".toList ∧
    get_current_tag_part ("a, b ".toList) 3 ≠ fragmentRaw ("a, b ".toList) 3 := by
  refine ⟨by decide, by decide, by decide⟩

/-- C5 (amended): the storage/display round-trip holds for every tag made of
ASCII digits, lowercase letters and `_`; it fails for tags containing `+`,
which the reverse conversion maps to `_`. -/
theorem storage_display_roundtrip :
    ∀ t : Str, (∀ c ∈ t, c.isDigit = true ∨ c.isLower = true ∨ c = '_') →
      convert_tag_for_storage (convert_tag_for_display t) = t := by
  intro t h
  rw [convert_tag_for_display, convert_tag_for_storage, lowerStr,
    List.map_map, List.map_map]
  apply map_id_of_mem
  intro c hc
  exact roundtrip_char c (h c hc)

/-- Witness for C5 at a concrete tag. -/
theorem storage_display_roundtrip_witness :
    (∀ c ∈ ("ab_c1".toList : Str), c.isDigit = true ∨ c.isLower = true ∨ c = '_') ∧
    convert_tag_for_storage (convert_tag_for_display ("ab_c1".toList)) = "ab_c1".toList :=
  ⟨by decide, storage_display_roundtrip ("ab_c1".toList) (by decide)⟩

/-- Counterexample to C5 as frozen: the claim includes `+` in the charset, but
`toStorageForm (toDisplayForm "a+b") = "a_b" ≠ "a+b"`. -/
theorem storage_display_plus_cex :
    convert_tag_for_storage (convert_tag_for_display ("a+b".toList)) = "a_b".toList ∧
    convert_tag_for_storage (convert_tag_for_display ("a+b".toList)) ≠ "a+b".toList := by
  refine ⟨by decide, by decide⟩

/-- C6 (amended): `_manual_csv_parse` pads every row to 4 fields before
`process_tags_with_frequency` runs, so the fewer-than-3-fields guard never
fires on the load path: every padded row has at least 4 fields, and any raw
row whose first field trims to a non-empty tag — even a row with fewer than 3
raw fields — contributes that tag to the index. -/
theorem load_rows_padding_spec :
    ∀ rawRows : List (List Str),
      (∀ r ∈ rawRows.map padRow, 4 ≤ r.length ∧ ¬ r.length < 3) ∧
      (∀ r ∈ rawRows, rowMainTag (padRow r) ≠ [] →
        mapHasKey (load_tag_rows rawRows) (rowMainTag (padRow r)) = true) := by
  intro rawRows
  constructor
  · intro r hr
    obtain ⟨r0, _, rfl⟩ := List.mem_map.1 hr
    have h4 : 4 ≤ (padRow r0).length := by
      rw [padRow, List.length_append, List.length_replicate]
      omega
    exact ⟨h4, by omega⟩
  · intro r hr hm
    rw [load_tag_rows, process_tags_with_frequency]
    apply processAll_hasKey_of_mem
    · exact List.mem_map_of_mem padRow hr
    · rw [padRow, List.length_append, List.length_replicate]
      omega
    · exact hm

/-- Witness for C6 on a concrete one-field row. -/
theorem load_rows_padding_spec_witness :
    (rowMainTag (padRow ["a".toList]) ≠ []) ∧
    mapHasKey (load_tag_rows [["a".toList]]) (rowMainTag (padRow ["a".toList])) = true :=
  ⟨by decide, (load_rows_padding_spec [["a".toList]]).2 ["a".toList] (by decide) (by decide)⟩

/-- Counterexample to C6 as frozen: a source row with a single field is NOT
skipped — after padding it contributes a TagRecord with weight 0. -/
theorem load_short_row_cex :
    load_tag_rows [["tag".toList]] = [("tag".toList, 0)] ∧
    mapGet (load_tag_rows [["tag".toList]]) ("tag".toList) = some 0 ∧
    "tag".toList ∈ sorted_tags_of (load_tag_rows [["tag".toList]]) := by
  refine ⟨by decide, by decide, by decide⟩

/-- C7: alternates obtain weight `max(1, primary_weight / 2)` (integer
division) only when their tag string is absent; an alternate never changes an
existing record; and a tag that occurs in a primary column ends with its
primary weight (the common weight of its primary occurrences). -/
theorem alternate_weight_primary_precedence :
    ∀ (rows : List (List Str)) (a : Str),
      (∀ v, mapGet (process_tags_with_frequency rows) a = some v →
        (∃ r ∈ rows, isPrimaryRow a r ∧ v = rowFreq r) ∨
        (∃ r ∈ rows, isAltRow a r ∧ v = max 1 (rowFreq r / 2))) ∧
      (∀ w, (∃ r ∈ rows, isPrimaryRow a r) →
        (∀ r ∈ rows, isPrimaryRow a r → rowFreq r = w) →
        mapGet (process_tags_with_frequency rows) a = some w) ∧
      (∀ (m : TagMap) (v : Nat), mapGet m a = some v →
        (∀ r ∈ rows, ¬ isPrimaryRow a r) →
        mapGet (rows.foldl processRow m) a = some v) := by
  intro rows a
  refine ⟨?_, ?_, ?_⟩
  · intro v h
    rw [process_tags_with_frequency] at h
    rcases processAll_sound rows [] a v h with h0 | hp | ⟨r, hr, hl, hm, hne, hv⟩
    · simp [mapGet] at h0
    · exact Or.inl hp
    · exact Or.inr ⟨r, hr, ⟨hl, hm, hne⟩, hv⟩
  · intro w hex hall
    rw [process_tags_with_frequency]
    exact processAll_primary rows [] a w hex hall
  · intro m v hv hnp
    exact processAll_preserve rows m a v hv hnp

/-- Witness for C7: `a` occurs as primary (weight 10) in one row and as an
alternate of another; the final weight is the primary one, and the fresh
alternate `c` gets half the second row's weight. -/
theorem alternate_weight_primary_precedence_witness :
    mapGet (process_tags_with_frequency
        [["a".toList, "".toList, "10".toList, "".toList],
         ["b".toList, "".toList, "4".toList, "a,c".toList]]) ("a".toList) = some 10 ∧
    mapGet (process_tags_with_frequency
        [["a".toList, "".toList, "10".toList, "".toList],
         ["b".toList, "".toList, "4".toList, "a,c".toList]]) ("c".toList) = some 2 :=
  ⟨(alternate_weight_primary_precedence
      [["a".toList, "".toList, "10".toList, "".toList],
       ["b".toList, "".toList, "4".toList, "a,c".toList]] ("a".toList)).2.1 10
      ⟨["a".toList, "".toList, "10".toList, "".toList], by decide, by decide⟩
      (by decide),
    by decide⟩

/-- C8 (amended): `select_suggestion` rewrites only the fragment delimited by
the nearest `,` OR `' '` on each side of the cursor (not the comma-only
fragment of `get_current_tag_part`): the new buffer is
prefix ++ leading-whitespace ++ display-tag ++ separator ++ suffix, the new
cursor sits at the end of the separator, every character outside the fragment
is preserved verbatim, the fragment contains neither `,` nor `' '`, and the
separator is empty or a single space. -/
theorem select_suggestion_frame :
    ∀ (text : Str) (cursorPos : Nat) (tag : Str),
      (select_suggestion text cursorPos tag).1 =
        text.take (selStart text cursorPos) ++ selLeadingWs text cursorPos ++
        convert_tag_for_display tag ++ selAddSeparator text cursorPos ++
        text.drop (selEnd text cursorPos) ∧
      (select_suggestion text cursorPos tag).2 =
        (text.take (selStart text cursorPos)).length +
        (selLeadingWs text cursorPos).length +
        (convert_tag_for_display tag).length +
        (selAddSeparator text cursorPos).length ∧
      text = text.take (selStart text cursorPos) ++ selFragment text cursorPos ++
        text.drop (selEnd text cursorPos) ∧
      (∀ c ∈ selFragment text cursorPos, ¬ (c = ',' ∨ c = ' ')) ∧
      (selAddSeparator text cursorPos = [] ∨ selAddSeparator text cursorPos = [' ']) := by
  intro text cursorPos tag
  refine ⟨rfl, rfl, ?_, selFragment_no_sep text cursorPos,
    selAddSeparator_shape text cursorPos⟩
  rw [selFragment]
  exact take_frag_drop text _ _ (selStart_le_selEnd text cursorPos)

/-- Witness for C8 at a concrete buffer, cursor and tag. -/
theorem select_suggestion_frame_witness :
    (select_suggestion ("safe, solo".toList) 8 ("mane".toList)).1 =
      ("safe, solo".toList).take (selStart ("safe, solo".toList) 8) ++
      selLeadingWs ("safe, solo".toList) 8 ++
      convert_tag_for_display ("mane".toList) ++
      selAddSeparator ("safe, solo".toList) 8 ++
      ("safe, solo".toList).drop (selEnd ("safe, solo".toList) 8) :=
  (select_suggestion_frame ("safe, solo".toList) 8 ("mane".toList)).1

/-- Counterexample to C8 as frozen: the claim builds the new buffer around the
comma-delimited fragment of the FragmentResolver, but the code also treats a
space as a boundary.  For buffer `"my tag"`, cursor 6, tag `x`, the comma
fragment spans the whole buffer, so the claim's shape forces the new buffer to
start with the display tag `x` — yet the code returns `"my x "`. -/
theorem select_suggestion_comma_fragment_cex :
    (select_suggestion ("my tag".toList) 6 ("x".toList)).1 = "my x ".toList ∧
    fragStart ("my tag".toList) 6 = 0 ∧
    fragEnd ("my tag".toList) 6 = 6 ∧
    ¬ ∃ sep : Str, (select_suggestion ("my tag".toList) 6 ("x".toList)).1 =
      ("my tag".toList).take (fragStart ("my tag".toList) 6) ++
      ((fragmentRaw ("my tag".toList) 6).takeWhile (fun c => c = ' ' || c = '\t')) ++
      convert_tag_for_display ("x".toList) ++ sep ++
      ("my tag".toList).drop (fragEnd ("my tag".toList) 6) := by
  refine ⟨by decide, by decide, by decide, ?_⟩
  rintro ⟨sep, h⟩
  have h1 : (select_suggestion ("my tag".toList) 6 ("x".toList)).1
      = 'm' :: "y x ".toList := by decide
  have h2 : ("my tag".toList).take (fragStart ("my tag".toList) 6) = [] := by decide
  have h3 : (fragmentRaw ("my tag".toList) 6).takeWhile (fun c => c = ' ' || c = '\t')
      = [] := by decide
  have h4 : convert_tag_for_display ("x".toList) = ['x'] := by decide
  have h5 : ("my tag".toList).drop (fragEnd ("my tag".toList) 6) = [] := by decide
  rw [h1, h2, h3, h4, h5] at h
  simp only [List.nil_append, List.append_nil, List.singleton_append] at h
  injection h with hhead _
  exact absurd hhead (by decide)

/-- C9: an empty or whitespace-only query, or an empty index, yields the empty
suggestion list (the embedding is total, so no error can be raised). -/
theorem find_suggestions_empty_cases :
    ∀ (tags : List Str) (freq : Str → Nat) (query : Str),
      ((∀ c ∈ query, pyIsSpace c = true) ∨ tags = []) →
      find_suggestions tags freq query = [] := by
  intro tags freq query h
  simp only [find_suggestions]
  rcases h with h | h
  · rw [if_pos]
    left
    apply pyStrip_all_space
    intro c hc
    obtain ⟨d, hd, rfl⟩ := List.mem_map.1 hc
    rw [pyIsSpace_toLower d (h d hd)]
    exact h d hd
  · rw [if_pos (Or.inr h)]

/-- Witness for C9: a whitespace-only query on a non-empty index. -/
theorem find_suggestions_empty_cases_witness :
    ((∀ c ∈ (" ".toList : Str), pyIsSpace c = true) ∨ (["safe".toList] : List Str) = []) ∧
    find_suggestions ["safe".toList] (fun _ => 0) (" ".toList) = [] :=
  ⟨Or.inl (by decide),
    find_suggestions_empty_cases ["safe".toList] (fun _ => 0) (" ".toList)
      (Or.inl (by decide))⟩

/-- C10: every string returned by `find_suggestions` is an element of the
loaded tag array, returned verbatim, and its lowercase form contains the
normalized query as a substring. -/
theorem find_suggestions_output_sound :
    ∀ (tags : List Str) (freq : Str → Nat) (query : Str) (s : Str),
      s ∈ find_suggestions tags freq query →
      s ∈ tags ∧ pyStrip (lowerStr query) <:+: lowerStr s := by
  intro tags freq query s h
  by_cases hc : pyStrip (lowerStr query) = [] ∨ tags = []
  · simp only [find_suggestions] at h
    rw [if_pos hc] at h
    cases h
  · simp only [find_suggestions] at h
    rw [if_neg hc] at h
    obtain ⟨n, hn⟩ := scan_eq_full_take freq (pyStrip (lowerStr query)) tags ScanAcc.init
    rw [hn] at h
    obtain ⟨hc1, hc2, hc3, hc4⟩ :=
      tierCharacterization_scanFull freq (pyStrip (lowerStr query)) (tags.take n)
    rcases mem_assemble _ s h with ⟨f, hm⟩ | ⟨f, len, hm⟩ | ⟨f, pos, len, hm⟩ |
      ⟨f, pos, len, hm⟩
    · obtain ⟨ht, hq, _⟩ := (hc1 s f).1 hm
      refine ⟨List.take_subset n tags ht, ?_⟩
      rw [hq]
    · obtain ⟨ht, hp, _, _, _⟩ := (hc2 s f len).1 hm
      exact ⟨List.take_subset n tags ht, infix_of_pfx hp⟩
    · obtain ⟨ht, hf, _, _, _, _⟩ := (hc3 s f pos len).1 hm
      refine ⟨List.take_subset n tags ht, ?_⟩
      rw [← findSub_isSome_iff, hf]
      rfl
    · obtain ⟨ht, hf, _, _, _, _⟩ := (hc4 s f pos len).1 hm
      refine ⟨List.take_subset n tags ht, ?_⟩
      rw [← findSub_isSome_iff, hf]
      rfl

/-- Witness for C10 at a concrete index and query. -/
theorem find_suggestions_output_sound_witness :
    ("abc".toList ∈ find_suggestions ["abc".toList] (fun _ => 0) ("b".toList)) ∧
    ("abc".toList ∈ (["abc".toList] : List Str) ∧
      pyStrip (lowerStr ("b".toList)) <:+: lowerStr ("abc".toList)) :=
  ⟨by decide,
    find_suggestions_output_sound ["abc".toList] (fun _ => 0) ("b".toList)
      ("abc".toList) (by decide)⟩
